import Mathlib

/-!
Verification of the quickwit actor-loop core (`quickwit-actors/src/async_actor.rs`)
and the host-addressing helpers (`quickwit-common/src/net.rs`) against their
natural-language specification.

The actor loop is embedded as a deterministic state machine driven by a finite
list of environment inputs (kill-switch observations, receive results,
last-mailbox observations).  User actors are embedded as pure state
transformers.  The loop records an event trace so that ordering and
exactly-once properties can be stated.
-/

namespace ActorModel

/-- Terminal outcome of an actor, mirroring `ActorExitStatus` from the source.
The error payload of `Failure` is abstracted as a `Nat` code. -/
inductive ActorExitStatus
  | success
  | quit
  | killed
  | failure (err : Nat)
  | panicked
deriving DecidableEq, Repr

/-- Modelled from the spec: fatal statuses (`Failure`, `Panicked`) trip the
kill switch in `ctx.exit`; `Success`, `Quit`, `Killed` do not. -/
def ActorExitStatus.isFatal : ActorExitStatus → Bool
  | .failure _ => true
  | .panicked => true
  | _ => false

/-- Control commands carried on the mailbox priority lane
(`Command` in the source: pause, resume, observe, quit, kill). -/
inductive Command
  | pause
  | resume
  | observe
  | quitCmd
  | kill
deriving DecidableEq, Repr

/-- Mirrors `CommandOrMessage` from `mailbox.rs`. -/
inductive CommandOrMessage (M : Type)
  | command (cmd : Command)
  | message (msg : M)
deriving DecidableEq

/-- Mirrors `RecvError` (timed receive outcome). -/
inductive RecvError
  | timeout
  | disconnected
deriving DecidableEq, Repr

/-- Result of `inbox.recv_timeout`, mirroring
`Result<CommandOrMessage<M>, RecvError>`. -/
inductive RecvResult (M : Type)
  | ok (item : CommandOrMessage M)
  | err (e : RecvError)
deriving DecidableEq

/-- Mirrors `ActorState` (`Running`, `Paused`, `Exit`). -/
inductive ActorState
  | running
  | paused
  | exitSt
deriving DecidableEq, Repr

/-- A user actor, embedded as pure state transformers over its private state
`S`: `initialize`/`process_message` return an optional exit status
(`Err(status)` in the source), `finalize` returns a flag standing for
`anyhow::Result` (true means an error was returned), and `observableState`
is the pure state projection. -/
structure ActorSpec (M S O : Type) where
  initializeFn : S → S × Option ActorExitStatus
  processMessage : M → S → S × Option ActorExitStatus
  finalize : ActorExitStatus → S → S × Bool
  observableState : S → O

/-- Trace events recorded by the embedded loop. -/
inductive Event (M : Type)
  | initializeCalled
  | recvCalled
  | processMessageCalled (msg : M)
  | commandProcessed (cmd : Command)
  | exitCalled (status : ActorExitStatus)
  | finalizeCalled (status : ActorExitStatus)
deriving DecidableEq

/-- Events produced inside one receive cycle (dispatch phase). -/
def Event.isLoopEvent {M : Type} : Event M → Bool
  | .recvCalled => true
  | .processMessageCalled _ => true
  | .commandProcessed _ => true
  | _ => false

/-- State threaded through the embedded loop: the actor's private state, the
context's `ActorState`, the shared kill switch, the progress counter, the
list of values sent on the watch channel (in order), and the event trace. -/
structure LoopState (M S O : Type) where
  actorState : S
  ctxActorState : ActorState
  killSwitch : Bool
  progressCount : Nat
  watchValues : List O
  events : List (Event M)

/-- Environment inputs for one receive cycle: whether some external party
tripped the kill switch before / during the receive, the receive outcome,
and the `is_last_mailbox()` observation. -/
structure CycleInput (M : Type) where
  externalKillBeforeRecv : Bool
  recvResult : RecvResult M
  externalKillAfterRecv : Bool
  isLastMailbox : Bool

variable {M S O : Type}

/-- Modelled from the spec: `process_command` (in `actor.rs`, not under
`src/`): pause/resume flip the `ActorState`, observe publishes a fresh
`observable_state()` through the watch channel, quit returns `Some(Quit)`,
kill trips the switch and returns `Some(Killed)`. -/
def process_command (A : ActorSpec M S O) (cmd : Command) (st : LoopState M S O) :
    LoopState M S O × Option ActorExitStatus :=
  let st' := { st with events := st.events ++ [.commandProcessed cmd] }
  match cmd with
  | .pause => ({ st' with ctxActorState := .paused }, none)
  | .resume => ({ st' with ctxActorState := .running }, none)
  | .observe =>
      ({ st' with watchValues := st'.watchValues ++ [A.observableState st'.actorState] }, none)
  | .quitCmd => (st', some .quit)
  | .kill => ({ st' with killSwitch := true }, some .killed)

/-- Modelled from the spec: `ctx.exit(&status)` (in `actor.rs`, not under
`src/`): transitions the context state to `Exit` and trips the kill switch
iff the status is fatal. -/
def ctx_exit (status : ActorExitStatus) (st : LoopState M S O) : LoopState M S O :=
  { st with
      ctxActorState := .exitSt,
      killSwitch := st.killSwitch || status.isFatal,
      events := st.events ++ [.exitCalled status] }

/-- One receive cycle, mirroring `process_msg` from `async_actor.rs`:
check the kill switch, record progress, receive, record progress, re-check
the kill switch, then dispatch the received item. -/
def process_msg (A : ActorSpec M S O) (input : CycleInput M) (st : LoopState M S O) :
    LoopState M S O × Option ActorExitStatus :=
  let st1 := { st with killSwitch := st.killSwitch || input.externalKillBeforeRecv }
  if st1.killSwitch then (st1, some .killed)
  else
    let st2 := { st1 with progressCount := st1.progressCount + 1 }
    let st3 := { st2 with events := st2.events ++ [Event.recvCalled] }
    let st4 := { st3 with
                   progressCount := st3.progressCount + 1,
                   killSwitch := st3.killSwitch || input.externalKillAfterRecv }
    if st4.killSwitch then (st4, some .killed)
    else
      match input.recvResult with
      | .ok (.command cmd) => process_command A cmd st4
      | .ok (.message msg) =>
          let r := A.processMessage msg st4.actorState
          ({ st4 with
               actorState := r.1,
               events := st4.events ++ [Event.processMessageCalled msg] }, r.2)
      | .err .disconnected => (st4, some .success)
      | .err .timeout =>
          if input.isLastMailbox then (st4, some .success) else (st4, none)

/-- The `loop { ... }` of `async_actor_loop`: break as soon as an exit status
has been decided, otherwise run one receive cycle per remaining environment
input.  Running out of inputs models a loop still waiting for input. -/
def actor_loop_go (A : ActorSpec M S O) :
    List (CycleInput M) → LoopState M S O → Option ActorExitStatus →
    LoopState M S O × Option ActorExitStatus
  | _, st, some exitStatus => (st, some exitStatus)
  | [], st, none => (st, none)
  | input :: rest, st, none =>
      let r := process_msg A input st
      actor_loop_go A rest r.1 r.2

/-- Mirrors `async_actor_loop`: call `initialize`, run the loop, then on a
decided exit status call `ctx.exit`, call `finalize` (whose error flag is
discarded), and send the final `observable_state()` on the watch channel. -/
def async_actor_loop (A : ActorSpec M S O) (inputs : List (CycleInput M))
    (st0 : LoopState M S O) : LoopState M S O × Option ActorExitStatus :=
  let ir := A.initializeFn st0.actorState
  let stInit := { st0 with actorState := ir.1, events := st0.events ++ [.initializeCalled] }
  match actor_loop_go A inputs stInit ir.2 with
  | (st, none) => (st, none)
  | (st, some exitStatus) =>
      let stExit := ctx_exit exitStatus st
      let fr := A.finalize exitStatus stExit.actorState
      let stFin := { stExit with
                       actorState := fr.1,
                       events := stExit.events ++ [Event.finalizeCalled exitStatus] }
      let finalState := A.observableState stFin.actorState
      (({ stFin with watchValues := stFin.watchValues ++ [finalState] }), some exitStatus)

/-- Mirrors `spawn_async_actor`: the watch channel is created with
`actor.observable_state()` before the loop task starts; the kill switch is
the one handed in by the spawner. -/
def initialLoopState (A : ActorSpec M S O) (kill0 : Bool) (s0 : S) : LoopState M S O :=
  { actorState := s0
    ctxActorState := .running
    killSwitch := kill0
    progressCount := 0
    watchValues := [A.observableState s0]
    events := [] }

/-- Spawning then running the loop on the given environment inputs. -/
def spawn_async_actor (A : ActorSpec M S O) (kill0 : Bool) (s0 : S)
    (inputs : List (CycleInput M)) : LoopState M S O × Option ActorExitStatus :=
  async_actor_loop A inputs (initialLoopState A kill0 s0)

theorem process_msg_events_shape (A : ActorSpec M S O) (i : CycleInput M)
    (st : LoopState M S O) :
    ∃ d, (process_msg A i st).1.events = st.events ++ d ∧
      ∀ e ∈ d, e.isLoopEvent = true := by
  simp only [process_msg]
  split
  · exact ⟨[], by simp⟩
  · split
    · exact ⟨[Event.recvCalled], by simp, by simp [Event.isLoopEvent]⟩
    · split
      · rename_i cmd _
        refine ⟨[Event.recvCalled, Event.commandProcessed cmd], ?_,
          by simp [Event.isLoopEvent]⟩
        cases cmd <;> simp [process_command]
      · rename_i msg _
        exact ⟨[Event.recvCalled, Event.processMessageCalled msg],
          by simp, by simp [Event.isLoopEvent]⟩
      · exact ⟨[Event.recvCalled], by simp, by simp [Event.isLoopEvent]⟩
      · split
        · exact ⟨[Event.recvCalled], by simp, by simp [Event.isLoopEvent]⟩
        · exact ⟨[Event.recvCalled], by simp, by simp [Event.isLoopEvent]⟩

theorem process_msg_watch_shape (A : ActorSpec M S O) (i : CycleInput M)
    (st : LoopState M S O) :
    ∃ d, (process_msg A i st).1.watchValues = st.watchValues ++ d := by
  simp only [process_msg]
  split
  · exact ⟨[], by simp⟩
  · split
    · exact ⟨[], by simp⟩
    · split
      · rename_i cmd _
        cases cmd
        case observe =>
          exact ⟨[A.observableState st.actorState], by simp [process_command]⟩
        case pause => exact ⟨[], by simp [process_command]⟩
        case resume => exact ⟨[], by simp [process_command]⟩
        case quitCmd => exact ⟨[], by simp [process_command]⟩
        case kill => exact ⟨[], by simp [process_command]⟩
      · exact ⟨[], by simp⟩
      · exact ⟨[], by simp⟩
      · split
        · exact ⟨[], by simp⟩
        · exact ⟨[], by simp⟩

theorem actor_loop_go_events_shape (A : ActorSpec M S O) (inputs : List (CycleInput M))
    (st : LoopState M S O) (eo : Option ActorExitStatus) :
    ∃ d, (actor_loop_go A inputs st eo).1.events = st.events ++ d ∧
      ∀ e ∈ d, e.isLoopEvent = true := by
  induction inputs generalizing st eo with
  | nil =>
    cases eo <;> exact ⟨[], by simp [actor_loop_go]⟩
  | cons i rest ih =>
    cases eo with
    | some s => exact ⟨[], by simp [actor_loop_go]⟩
    | none =>
      obtain ⟨d1, hd1, hl1⟩ := process_msg_events_shape A i st
      obtain ⟨d2, hd2, hl2⟩ := ih (process_msg A i st).1 (process_msg A i st).2
      refine ⟨d1 ++ d2, ?_, ?_⟩
      · simp [actor_loop_go, hd2, hd1]
      · intro e he
        rcases List.mem_append.mp he with h | h
        · exact hl1 e h
        · exact hl2 e h

theorem actor_loop_go_watch_shape (A : ActorSpec M S O) (inputs : List (CycleInput M))
    (st : LoopState M S O) (eo : Option ActorExitStatus) :
    ∃ d, (actor_loop_go A inputs st eo).1.watchValues = st.watchValues ++ d := by
  induction inputs generalizing st eo with
  | nil =>
    cases eo <;> exact ⟨[], by simp [actor_loop_go]⟩
  | cons i rest ih =>
    cases eo with
    | some s => exact ⟨[], by simp [actor_loop_go]⟩
    | none =>
      obtain ⟨d1, hd1⟩ := process_msg_watch_shape A i st
      obtain ⟨d2, hd2⟩ := ih (process_msg A i st).1 (process_msg A i st).2
      exact ⟨d1 ++ d2, by simp [actor_loop_go, hd2, hd1]⟩

theorem actor_loop_go_state_const (A : ActorSpec M S O) (inputs : List (CycleInput M))
    (st : LoopState M S O) (s : ActorExitStatus) :
    actor_loop_go A inputs st (some s) = (st, some s) := by
  cases inputs <;> rfl

/-- Shape of a whole run: exactly one `initializeCalled`, first; then loop
events only; and, when an exit status is decided, exactly
`exitCalled` then `finalizeCalled` with that status at the very end. -/
theorem async_actor_loop_events_shape (A : ActorSpec M S O)
    (inputs : List (CycleInput M)) (st0 : LoopState M S O) :
    ∃ d, (∀ e ∈ d, e.isLoopEvent = true) ∧
      (((async_actor_loop A inputs st0).2 = none ∧
        (async_actor_loop A inputs st0).1.events =
          st0.events ++ Event.initializeCalled :: d) ∨
       (∃ s, (async_actor_loop A inputs st0).2 = some s ∧
        (async_actor_loop A inputs st0).1.events =
          st0.events ++ Event.initializeCalled ::
            (d ++ [Event.exitCalled s, Event.finalizeCalled s]))) := by
  simp only [async_actor_loop]
  set stInit : LoopState M S O :=
    { st0 with
        actorState := (A.initializeFn st0.actorState).1,
        events := st0.events ++ [Event.initializeCalled] } with hstInit
  obtain ⟨d, hd, hl⟩ :=
    actor_loop_go_events_shape A inputs stInit (A.initializeFn st0.actorState).2
  refine ⟨d, hl, ?_⟩
  rcases hres : actor_loop_go A inputs stInit (A.initializeFn st0.actorState).2 with ⟨st', eo⟩
  cases eo with
  | none =>
    left
    rw [hres] at hd
    simp only [hstInit] at hd
    simp [hd]
  | some s =>
    right
    refine ⟨s, ?_⟩
    rw [hres] at hd
    simp only [hstInit] at hd
    simp [ctx_exit, hd]

theorem async_actor_loop_watch_shape (A : ActorSpec M S O)
    (inputs : List (CycleInput M)) (st0 : LoopState M S O) :
    ∃ d, (async_actor_loop A inputs st0).1.watchValues = st0.watchValues ++ d := by
  simp only [async_actor_loop]
  set stInit : LoopState M S O :=
    { st0 with
        actorState := (A.initializeFn st0.actorState).1,
        events := st0.events ++ [Event.initializeCalled] } with hstInit
  obtain ⟨d, hd⟩ :=
    actor_loop_go_watch_shape A inputs stInit (A.initializeFn st0.actorState).2
  rcases hres : actor_loop_go A inputs stInit (A.initializeFn st0.actorState).2 with ⟨st', eo⟩
  rw [hres] at hd
  simp only [hstInit] at hd
  cases eo with
  | none => exact ⟨d, by simp [hd]⟩
  | some s =>
    refine ⟨d ++ [A.observableState
      (A.finalize s (ctx_exit s st').actorState).1], ?_⟩
    simp [ctx_exit, hd]

theorem process_msg_finalize_irrel (A : ActorSpec M S O)
    (f' : ActorExitStatus → S → S × Bool) (i : CycleInput M) (st : LoopState M S O) :
    process_msg { A with finalize := f' } i st = process_msg A i st := rfl

theorem actor_loop_go_finalize_irrel (A : ActorSpec M S O)
    (f' : ActorExitStatus → S → S × Bool) (inputs : List (CycleInput M))
    (st : LoopState M S O) (eo : Option ActorExitStatus) :
    actor_loop_go { A with finalize := f' } inputs st eo = actor_loop_go A inputs st eo := by
  induction inputs generalizing st eo with
  | nil => cases eo <;> rfl
  | cons i rest ih =>
    cases eo with
    | some s => rfl
    | none =>
      simp only [actor_loop_go]
      rw [process_msg_finalize_irrel]
      exact ih _ _

theorem async_actor_loop_finalize_irrel (A : ActorSpec M S O)
    (f' : ActorExitStatus → S → S × Bool) (inputs : List (CycleInput M))
    (st0 : LoopState M S O) :
    (async_actor_loop { A with finalize := f' } inputs st0).2 =
      (async_actor_loop A inputs st0).2 := by
  simp only [async_actor_loop]
  rw [actor_loop_go_finalize_irrel]
  rcases actor_loop_go A inputs _ _ with ⟨st', eo⟩
  cases eo <;> rfl

/-- Claim C1: `initialize` is invoked exactly once, strictly before any
receive or `process_message` call; and if it returns `Err(s)`, the loop does
no receive and no `process_message`, and the run's result (after finalize)
is exactly `s`: the trace is then exactly
`[initializeCalled, exitCalled s, finalizeCalled s]`. -/
theorem C1_initialize_once_before_any_receive [DecidableEq M]
    (A : ActorSpec M S O) (kill0 : Bool) (s0 : S)
    (inputs : List (CycleInput M)) (s : ActorExitStatus) :
    ((spawn_async_actor A kill0 s0 inputs).1.events.head? = some Event.initializeCalled ∧
     (spawn_async_actor A kill0 s0 inputs).1.events.count Event.initializeCalled = 1) ∧
    ((A.initializeFn s0).2 = some s →
      (spawn_async_actor A kill0 s0 inputs).2 = some s ∧
      (spawn_async_actor A kill0 s0 inputs).1.events =
        [Event.initializeCalled, Event.exitCalled s, Event.finalizeCalled s]) := by
  constructor
  · obtain ⟨d, hl, hshape⟩ :=
      async_actor_loop_events_shape A inputs (initialLoopState A kill0 s0)
    have hnotin : Event.initializeCalled ∉ d := by
      intro hmem
      have := hl _ hmem
      simp [Event.isLoopEvent] at this
    rcases hshape with ⟨_, hev⟩ | ⟨s', _, hev⟩ <;>
      rw [spawn_async_actor] <;> rw [hev] <;> simp [initialLoopState] <;>
      simp [List.count_eq_zero_of_not_mem, hnotin, Event.isLoopEvent]
  · intro hinit
    have hconst := actor_loop_go_state_const A inputs
      { initialLoopState A kill0 s0 with
          actorState := (A.initializeFn s0).1,
          events := (initialLoopState A kill0 s0).events ++ [Event.initializeCalled] } s
    rw [spawn_async_actor]
    simp only [async_actor_loop, initialLoopState] at hconst ⊢
    rw [hinit, hconst]
    simp [ctx_exit]

/-- Claim C2: in every receive cycle (`process_msg`), observing the kill
switch dead before the receive yields `Killed` with no receive performed;
observing it dead right after the receive yields `Killed` with the received
item not dispatched (the trace gains only `recvCalled`). -/
theorem C2_kill_switch_observed_killed (A : ActorSpec M S O) (i : CycleInput M)
    (st : LoopState M S O) :
    ((st.killSwitch || i.externalKillBeforeRecv) = true →
      process_msg A i st =
        ({ st with killSwitch := true }, some ActorExitStatus.killed)) ∧
    ((st.killSwitch || i.externalKillBeforeRecv) = false →
      i.externalKillAfterRecv = true →
      (process_msg A i st).2 = some ActorExitStatus.killed ∧
      (process_msg A i st).1.events = st.events ++ [Event.recvCalled]) := by
  constructor
  · intro h
    simp [process_msg, h]
  · intro h ha
    simp [process_msg, h, ha]

/-- Claim C3: with the kill switch not tripped in the cycle, a
`Disconnected` receive yields `Success`, and a `Timeout` receive yields
`Success` exactly when `is_last_mailbox()` holds, otherwise no exit status. -/
theorem C3_disconnect_timeout_outcomes (A : ActorSpec M S O) (i : CycleInput M)
    (st : LoopState M S O)
    (hb : (st.killSwitch || i.externalKillBeforeRecv) = false)
    (ha : i.externalKillAfterRecv = false) :
    (i.recvResult = RecvResult.err RecvError.disconnected →
      (process_msg A i st).2 = some ActorExitStatus.success) ∧
    (i.recvResult = RecvResult.err RecvError.timeout →
      (process_msg A i st).2 =
        (if i.isLastMailbox then some ActorExitStatus.success else none)) := by
  constructor
  · intro hr
    simp [process_msg, hb, ha, hr]
  · intro hr
    simp only [process_msg, hb, ha, hr]
    simp
    split <;> simp

/-- Claim C4: whenever the run decides exit status `s`, `finalize` is called
exactly once, with `s`, immediately after `ctx.exit(&s)` (the trace ends
`..., exitCalled s, finalizeCalled s` and no earlier event is a finalize);
the error flag returned by `finalize` is discarded, so the run's result is
`s` for every possible `finalize` implementation. -/
theorem C4_finalize_once_status_preserved (A : ActorSpec M S O) (kill0 : Bool)
    (s0 : S) (inputs : List (CycleInput M)) (s : ActorExitStatus)
    (h : (spawn_async_actor A kill0 s0 inputs).2 = some s) :
    (∃ d, (∀ e ∈ d, e.isLoopEvent = true) ∧
      (spawn_async_actor A kill0 s0 inputs).1.events =
        Event.initializeCalled :: (d ++ [Event.exitCalled s, Event.finalizeCalled s])) ∧
    (∀ f' : ActorExitStatus → S → S × Bool,
      (spawn_async_actor { A with finalize := f' } kill0 s0 inputs).2 = some s) := by
  constructor
  · obtain ⟨d, hl, hshape⟩ :=
      async_actor_loop_events_shape A inputs (initialLoopState A kill0 s0)
    rcases hshape with ⟨hres, _⟩ | ⟨s', hres, hev⟩
    · rw [spawn_async_actor] at h
      rw [h] at hres
      cases hres
    · rw [spawn_async_actor] at h
      rw [h] at hres
      injection hres with hres2
      subst hres2
      refine ⟨d, hl, ?_⟩
      rw [spawn_async_actor, hev]
      simp [initialLoopState]
  · intro f'
    rw [spawn_async_actor, async_actor_loop_finalize_irrel]
    exact h

/-- Claim C5: when the run resolves, the last value sent on the watch
channel is `observable_state()` of the actor's state after the loop exits
and `finalize` has run (the final actor state of the run). -/
theorem C5_final_watch_value (A : ActorSpec M S O) (kill0 : Bool) (s0 : S)
    (inputs : List (CycleInput M)) (s : ActorExitStatus)
    (h : (spawn_async_actor A kill0 s0 inputs).2 = some s) :
    (spawn_async_actor A kill0 s0 inputs).1.watchValues.getLast? =
      some (A.observableState (spawn_async_actor A kill0 s0 inputs).1.actorState) := by
  rw [spawn_async_actor] at h ⊢
  simp only [async_actor_loop] at h ⊢
  rcases hres : actor_loop_go A inputs
      { initialLoopState A kill0 s0 with
          actorState := (A.initializeFn (initialLoopState A kill0 s0).actorState).1,
          events := (initialLoopState A kill0 s0).events ++ [Event.initializeCalled] }
      (A.initializeFn (initialLoopState A kill0 s0).actorState).2 with ⟨st', eo⟩
  try rw [hres] at h
  try rw [hres]
  cases eo with
  | none => simp at h
  | some s' => simp [List.getLast?_concat]

/-- Claim C9: the watch channel is created at spawn time with
`actor.observable_state()` of the initial actor state, before `initialize`
or any message handling runs, so the first value ever observable on the
channel is the initial state projection. -/
theorem C9_initial_watch_value (A : ActorSpec M S O) (kill0 : Bool) (s0 : S)
    (inputs : List (CycleInput M)) :
    (spawn_async_actor A kill0 s0 inputs).1.watchValues.head? =
      some (A.observableState s0) := by
  obtain ⟨d, hd⟩ := async_actor_loop_watch_shape A inputs (initialLoopState A kill0 s0)
  rw [spawn_async_actor, hd]
  simp [initialLoopState]

/-- A concrete summing actor used to witness the loop theorems. -/
def wActor : ActorSpec Nat Nat Nat :=
  { initializeFn := fun s => (s, none)
    processMessage := fun m s => (s + m, none)
    finalize := fun _ s => (s, false)
    observableState := fun s => s }

/-- A concrete actor whose `initialize` fails with `Failure(7)`. -/
def wActorErr : ActorSpec Nat Nat Nat :=
  { initializeFn := fun s => (s, some (ActorExitStatus.failure 7))
    processMessage := fun m s => (s + m, none)
    finalize := fun _ s => (s, false)
    observableState := fun s => s }

/-- Cycle input: kill switch tripped before the receive. -/
def wKillBefore : CycleInput Nat :=
  { externalKillBeforeRecv := true
    recvResult := RecvResult.err RecvError.timeout
    externalKillAfterRecv := false
    isLastMailbox := false }

/-- Cycle input: kill switch tripped during the receive. -/
def wKillAfter : CycleInput Nat :=
  { externalKillBeforeRecv := false
    recvResult := RecvResult.err RecvError.timeout
    externalKillAfterRecv := true
    isLastMailbox := false }

/-- Cycle input: mailbox disconnected. -/
def wDisc : CycleInput Nat :=
  { externalKillBeforeRecv := false
    recvResult := RecvResult.err RecvError.disconnected
    externalKillAfterRecv := false
    isLastMailbox := false }

/-- Cycle input: receive timeout with the last mailbox dropped. -/
def wTimeoutLast : CycleInput Nat :=
  { externalKillBeforeRecv := false
    recvResult := RecvResult.err RecvError.timeout
    externalKillAfterRecv := false
    isLastMailbox := true }

/-- Loop state after spawning `wActor` with a live kill switch. -/
def wSt : LoopState Nat Nat Nat := initialLoopState wActor false 0

theorem C1_witness :
    (spawn_async_actor wActorErr false 0 ([] : List (CycleInput Nat))).2 =
      some (ActorExitStatus.failure 7) ∧
    (spawn_async_actor wActorErr false 0 ([] : List (CycleInput Nat))).1.events =
      [Event.initializeCalled, Event.exitCalled (ActorExitStatus.failure 7),
       Event.finalizeCalled (ActorExitStatus.failure 7)] :=
  (C1_initialize_once_before_any_receive wActorErr false 0 []
    (ActorExitStatus.failure 7)).2 rfl

theorem C2_witness :
    (process_msg wActor wKillBefore wSt =
      ({ wSt with killSwitch := true }, some ActorExitStatus.killed)) ∧
    ((process_msg wActor wKillAfter wSt).2 = some ActorExitStatus.killed ∧
     (process_msg wActor wKillAfter wSt).1.events = wSt.events ++ [Event.recvCalled]) :=
  ⟨(C2_kill_switch_observed_killed wActor wKillBefore wSt).1 rfl,
   (C2_kill_switch_observed_killed wActor wKillAfter wSt).2 rfl rfl⟩

theorem C3_witness :
    (process_msg wActor wDisc wSt).2 = some ActorExitStatus.success ∧
    (process_msg wActor wTimeoutLast wSt).2 =
      (if wTimeoutLast.isLastMailbox then some ActorExitStatus.success else none) :=
  ⟨(C3_disconnect_timeout_outcomes wActor wDisc wSt rfl rfl).1 rfl,
   (C3_disconnect_timeout_outcomes wActor wTimeoutLast wSt rfl rfl).2 rfl⟩

theorem C4_witness :
    (∃ d, (∀ e ∈ d, e.isLoopEvent = true) ∧
      (spawn_async_actor wActor false 0 [wDisc]).1.events =
        Event.initializeCalled ::
          (d ++ [Event.exitCalled ActorExitStatus.success,
                 Event.finalizeCalled ActorExitStatus.success])) ∧
    (∀ f' : ActorExitStatus → Nat → Nat × Bool,
      (spawn_async_actor { wActor with finalize := f' } false 0 [wDisc]).2 =
        some ActorExitStatus.success) :=
  C4_finalize_once_status_preserved wActor false 0 [wDisc] ActorExitStatus.success rfl

theorem C5_witness :
    (spawn_async_actor wActor false 0 [wDisc]).1.watchValues.getLast? =
      some (wActor.observableState
        (spawn_async_actor wActor false 0 [wDisc]).1.actorState) :=
  C5_final_watch_value wActor false 0 [wDisc] ActorExitStatus.success rfl

end ActorModel

namespace QNet

/-- Mirrors Rust `char::is_ascii_alphanumeric`
(`'A'..='Z' | 'a'..='z' | '0'..='9'`). -/
def isAsciiAlphanumeric (c : Char) : Bool :=
  (65 ≤ c.toNat && c.toNat ≤ 90) || (97 ≤ c.toNat && c.toNat ≤ 122) ||
    (48 ≤ c.toNat && c.toNat ≤ 57)

/-- The character filter of `is_valid_hostname`:
`ch.is_ascii_alphanumeric() || ch == '-' || ch == '.'`. -/
def isHostnameChar (c : Char) : Bool :=
  isAsciiAlphanumeric c || c == '-' || c == '.'

/-- Rust `str::len`: the number of UTF-8 bytes of the string. -/
def utf8Len (s : List Char) : Nat := (s.map Char.utf8Size).sum

/-- Rust `str::split(sep)` collected into a list: split on every occurrence
of `sep`, keeping empty pieces, with one empty piece for the empty string. -/
def rustSplit (sep : Char) : List Char → List (List Char)
  | [] => [[]]
  | c :: cs =>
    if c = sep then [] :: rustSplit sep cs
    else
      match rustSplit sep cs with
      | [] => [[c]]
      | l :: ls => (c :: l) :: ls

/-- The per-label disqualification closure inside `is_valid_hostname`:
`label.is_empty() || label.len() > 63 || label.starts_with('-') ||
label.ends_with('-')`. -/
def labelBad (label : List Char) : Bool :=
  label.isEmpty || decide (utf8Len label > 63) ||
    label.head? == some '-' || label.getLast? == some '-'

/-- Mirrors `is_valid_hostname` from `net.rs` (string lengths are UTF-8 byte
counts, as Rust's `str::len`). -/
def is_valid_hostname (hostname : List Char) : Bool :=
  if hostname.isEmpty || decide (utf8Len hostname > 253) then false
  else if !(hostname.all isHostnameChar) then false
  else if (rustSplit '.' hostname).any labelBad then false
  else true

/-- The hostname-validity rule as the claim words it: non-empty, at most 253
characters, only ASCII alphanumerics, `-` and `.`, and every `.`-separated
label non-empty, at most 63 characters, neither starting nor ending with
`-`. -/
def validHostnameSpec (s : List Char) : Prop :=
  s ≠ [] ∧ s.length ≤ 253 ∧ (∀ c ∈ s, isHostnameChar c = true) ∧
  ∀ l ∈ rustSplit '.' s,
    l ≠ [] ∧ l.length ≤ 63 ∧ l.head? ≠ some '-' ∧ l.getLast? ≠ some '-'

theorem utf8Size_of_hostnameChar (c : Char) (h : isHostnameChar c = true) :
    c.utf8Size = 1 := by
  have hle : c.toNat ≤ 122 := by
    simp only [isHostnameChar, isAsciiAlphanumeric, Bool.or_eq_true,
      Bool.and_eq_true, decide_eq_true_eq, beq_iff_eq] at h
    rcases h with (⟨_, h2⟩ | ⟨_, h2⟩ | ⟨_, h2⟩) | rfl | rfl
    · omega
    · omega
    · omega
    · decide
    · decide
  simp only [Char.utf8Size]
  rw [if_pos]
  rw [UInt32.le_def, BitVec.le_def]
  have hv : c.val.toBitVec.toNat = c.toNat := rfl
  rw [hv]
  rw [show (UInt32.ofNatCore 127 Char.utf8Size.proof_1).toBitVec.toNat = 127 from rfl]
  omega

theorem utf8Len_eq_length (s : List Char)
    (h : ∀ c ∈ s, isHostnameChar c = true) : utf8Len s = s.length := by
  induction s with
  | nil => rfl
  | cons c cs ih =>
    have hc := utf8Size_of_hostnameChar c (h c (by simp))
    have hcs := ih (fun x hx => h x (List.mem_cons_of_mem c hx))
    simp [utf8Len] at hcs ⊢
    omega

theorem mem_of_mem_rustSplit (sep : Char) (s l : List Char) (c : Char)
    (hl : l ∈ rustSplit sep s) (hc : c ∈ l) : c ∈ s := by
  induction s generalizing l with
  | nil =>
    simp [rustSplit] at hl
    subst hl
    simp at hc
  | cons a as ih =>
    simp only [rustSplit] at hl
    by_cases ha : a = sep
    · rw [if_pos ha] at hl
      rcases List.mem_cons.mp hl with rfl | hl'
      · simp at hc
      · exact List.mem_cons_of_mem a (ih l hl' hc)
    · rw [if_neg ha] at hl
      rcases hsp : rustSplit sep as with _ | ⟨l0, ls⟩
      · rw [hsp] at hl
        simp at hl
        subst hl
        simp at hc
        simp [hc]
      · rw [hsp] at hl
        rcases List.mem_cons.mp hl with rfl | hl'
        · rcases List.mem_cons.mp hc with rfl | hc'
          · simp
          · have : c ∈ as := ih l0 (by rw [hsp]; exact List.mem_cons_self l0 ls) hc'
            simp [this]
        · have : c ∈ as := ih l (by rw [hsp]; exact List.mem_cons_of_mem l0 hl') hc
          simp [this]

/-- Claim C6: `is_valid_hostname(s)` returns true iff `s` is non-empty, at
most 253 characters, consists only of ASCII alphanumerics, `-` and `.`, and
every `.`-separated label is non-empty, at most 63 characters, and neither
starts nor ends with `-`. -/
theorem C6_is_valid_hostname_iff (s : List Char) :
    is_valid_hostname s = true ↔ validHostnameSpec s := by
  unfold is_valid_hostname validHostnameSpec
  split
  · rename_i h1
    simp only [Bool.or_eq_true, decide_eq_true_eq, List.isEmpty_iff] at h1
    constructor
    · intro h
      cases h
    · rintro ⟨hne, hlen, hall, _⟩
      exfalso
      rcases h1 with h1 | h1
      · exact hne h1
      · have := utf8Len_eq_length s hall
        omega
  · rename_i h1
    simp only [Bool.or_eq_true, decide_eq_true_eq, List.isEmpty_iff, not_or] at h1
    obtain ⟨hne, hlen⟩ := h1
    split
    · rename_i h2
      simp only [Bool.not_eq_eq_eq_not, Bool.not_true, List.all_eq_false] at h2
      constructor
      · intro h
        cases h
      · rintro ⟨_, _, hall, _⟩
        exfalso
        obtain ⟨c, hc, hcbad⟩ := h2
        rw [hall c hc] at hcbad
        exact hcbad rfl
    · rename_i h2
      simp only [Bool.not_eq_eq_eq_not, Bool.not_true, Bool.not_eq_false] at h2
      have hall : ∀ c ∈ s, isHostnameChar c = true := List.all_eq_true.mp h2
      split
      · rename_i h3
        constructor
        · intro h
          cases h
        · rintro ⟨_, _, _, hlab⟩
          exfalso
          obtain ⟨l, hlmem, hbad⟩ := List.any_eq_true.mp h3
          obtain ⟨hlne, hllen, hhd, hlast⟩ := hlab l hlmem
          have hlchars : ∀ c ∈ l, isHostnameChar c = true :=
            fun c hc => hall c (mem_of_mem_rustSplit '.' s l c hlmem hc)
          have hblen := utf8Len_eq_length l hlchars
          simp only [labelBad, Bool.or_eq_true, decide_eq_true_eq,
            List.isEmpty_iff, beq_iff_eq] at hbad
          rcases hbad with ((hb | hb) | hb) | hb
          · exact hlne hb
          · omega
          · exact hhd hb
          · exact hlast hb
      · rename_i h3
        simp only [List.any_eq_true, not_exists, not_and, Bool.not_eq_true] at h3
        constructor
        · intro _
          refine ⟨hne, by rw [← utf8Len_eq_length s hall]; omega, hall, ?_⟩
          intro l hlmem
          have hb := h3 l hlmem
          have hlchars : ∀ c ∈ l, isHostnameChar c = true :=
            fun c hc => hall c (mem_of_mem_rustSplit '.' s l c hlmem hc)
          have hblen := utf8Len_eq_length l hlchars
          simp only [labelBad, Bool.or_eq_false_iff, decide_eq_false_iff_not,
            beq_eq_false_iff_ne, ne_eq] at hb
          obtain ⟨⟨⟨hb1, hb2⟩, hb3⟩, hb4⟩ := hb
          refine ⟨?_, by omega, hb3, hb4⟩
          intro hl
          rw [hl] at hb1
          simp at hb1
        · intro _
          rfl

/-- Mirrors Rust `char::to_digit`'s digit-value table (`0-9`, `a-z`, `A-Z`). -/
def charDigitVal (c : Char) : Option Nat :=
  if 48 ≤ c.toNat ∧ c.toNat ≤ 57 then some (c.toNat - 48)
  else if 97 ≤ c.toNat ∧ c.toNat ≤ 122 then some (c.toNat - 87)
  else if 65 ≤ c.toNat ∧ c.toNat ≤ 90 then some (c.toNat - 55)
  else none

/-- Mirrors Rust `char::to_digit(radix)`. -/
def toDigit (radix : Nat) (c : Char) : Option Nat :=
  match charDigitVal c with
  | some v => if v < radix then some v else none
  | none => none

/-- The maximal digit prefix (as digit values) and the remaining input, as
consumed by the digit loop of `Parser::read_number` in Rust `core::net`. -/
def takeDigits (radix : Nat) : List Char → List Nat × List Char
  | [] => ([], [])
  | c :: cs =>
    match toDigit radix c with
    | some d =>
      let r := takeDigits radix cs
      (d :: r.1, r.2)
    | none => ([], c :: cs)

/-- Value of a digit sequence, most significant first. -/
def digitsVal (radix : Nat) (ds : List Nat) : Nat :=
  ds.foldl (fun acc d => acc * radix + d) 0

/-- Mirrors `Parser::read_number(radix, max_digits, allow_zero_prefix)` from
Rust `core::net`, for an integer type with maximum value `cap`: consume all
consecutive digits; fail on no digits, on more than `max_digits` digits, on
a forbidden leading zero, or on overflow past `cap`. -/
def read_number (radix : Nat) (maxDigits : Option Nat) (allowZeroPrefix : Bool)
    (cap : Nat) (input : List Char) : Option (Nat × List Char) :=
  let hasLeadingZero := input.head? == some '0'
  let r := takeDigits radix input
  if r.1.isEmpty then none
  else if (match maxDigits with
           | some m => decide (r.1.length > m)
           | none => false) then none
  else if !allowZeroPrefix && hasLeadingZero && decide (r.1.length > 1) then none
  else if digitsVal radix r.1 > cap then none
  else some (digitsVal radix r.1, r.2)

/-- Mirrors `Parser::read_given_char`. -/
def read_given_char (c : Char) : List Char → Option (Unit × List Char)
  | [] => none
  | x :: xs => if x = c then some ((), xs) else none

/-- Mirrors `Parser::read_separator(sep, index, inner)`: require `sep` first
except for the element at index 0. -/
def read_separator {α : Type} (sep : Char) (i : Nat)
    (inner : List Char → Option (α × List Char)) (input : List Char) :
    Option (α × List Char) :=
  if i = 0 then inner input
  else
    match read_given_char sep input with
    | none => none
    | some (_, r) => inner r

/-- An IPv4 address as four octets. -/
structure Ipv4 where
  o1 : Nat
  o2 : Nat
  o3 : Nat
  o4 : Nat
deriving DecidableEq, Repr

/-- An IPv6 address as its list of eight 16-bit groups. -/
structure Ipv6 where
  segs : List Nat
deriving DecidableEq, Repr

/-- Mirrors `Parser::read_ipv4_addr`: four octets `read_number(10, Some(3),
false)` separated by `.`. -/
def read_ipv4_addr (input : List Char) : Option (Ipv4 × List Char) := do
  let (a, r1) ← read_number 10 (some 3) false 255 input
  let (_, r2) ← read_given_char '.' r1
  let (b, r3) ← read_number 10 (some 3) false 255 r2
  let (_, r4) ← read_given_char '.' r3
  let (c, r5) ← read_number 10 (some 3) false 255 r4
  let (_, r6) ← read_given_char '.' r5
  let (d, r7) ← read_number 10 (some 3) false 255 r6
  some (⟨a, b, c, d⟩, r7)

/-- Mirrors the inner `read_groups` loop of `Parser::read_ipv6_addr`: at each
index, first try a trailing embedded IPv4 address (only when at least two
group slots remain), then a hex group `read_number(16, Some(4), true)`, both
behind `read_separator(':', i, ...)`.  Returns the groups read, whether an
embedded IPv4 ended the run, and the remaining input. -/
def read_groups_go (limit : Nat) : Nat → Nat → List Char → List Nat × Bool × List Char
  | 0, _, input => ([], false, input)
  | remaining + 1, i, input =>
    match (if i + 1 < limit then read_separator ':' i read_ipv4_addr input else none) with
    | some (v4, rest) =>
      ([v4.o1 * 256 + v4.o2, v4.o3 * 256 + v4.o4], true, rest)
    | none =>
      match read_separator ':' i (read_number 16 (some 4) true 65535) input with
      | some (g, rest) =>
        let r := read_groups_go limit remaining (i + 1) rest
        (g :: r.1, r.2.1, r.2.2)
      | none => ([], false, input)

/-- `read_groups` over a group array of size `limit`. -/
def read_groups (limit : Nat) (input : List Char) : List Nat × Bool × List Char :=
  read_groups_go limit limit 0 input

/-- Mirrors `Parser::read_ipv6_addr`: head groups (the whole address, or the
part before `::`), then `::` and tail groups, zero-filling the middle. -/
def read_ipv6_addr (input : List Char) : Option (Ipv6 × List Char) :=
  let h := read_groups 8 input
  if h.1.length = 8 then some (⟨h.1⟩, h.2.2)
  else if h.2.1 then none
  else
    match read_given_char ':' h.2.2 with
    | none => none
    | some (_, r2) =>
      match read_given_char ':' r2 with
      | none => none
      | some (_, r3) =>
        let t := read_groups (8 - (h.1.length + 1)) r3
        some (⟨h.1 ++ List.replicate (8 - h.1.length - t.1.length) 0 ++ t.1⟩, t.2.2)

/-- Mirrors `Parser::read_scope_id`: `%` then `read_number(10, None, true)`
into a `u32`. -/
def read_scope_id (input : List Char) : Option (Nat × List Char) :=
  match read_given_char '%' input with
  | none => none
  | some (_, r) => read_number 10 none true 4294967295 r

/-- Mirrors `Parser::read_port`: `:` then `read_number(10, None, true)` into
a `u16`. -/
def read_port (input : List Char) : Option (Nat × List Char) :=
  match read_given_char ':' input with
  | none => none
  | some (_, r) => read_number 10 none true 65535 r

/-- Mirrors `Parser::read_socket_addr_v4`: an IPv4 address then a port. -/
def read_socket_addr_v4 (input : List Char) : Option ((Ipv4 × Nat) × List Char) := do
  let (ip, r1) ← read_ipv4_addr input
  let (port, r2) ← read_port r1
  some ((ip, port), r2)

/-- Mirrors `Parser::read_socket_addr_v6`: `[`, an IPv6 address, an optional
scope id, `]`, then a port. -/
def read_socket_addr_v6 (input : List Char) : Option ((Ipv6 × Nat) × List Char) := do
  let (_, r1) ← read_given_char '[' input
  let (ip, r2) ← read_ipv6_addr r1
  let r3 := match read_scope_id r2 with
            | some (_, r) => r
            | none => r2
  let (_, r4) ← read_given_char ']' r3
  let (port, r5) ← read_port r4
  some ((ip, port), r5)

/-- An IP address (mirrors `std::net::IpAddr`). -/
inductive IpAddr
  | v4 (ip : Ipv4)
  | v6 (ip : Ipv6)
deriving DecidableEq, Repr

/-- Mirrors `Parser::read_ip_addr`: IPv4 first, otherwise IPv6. -/
def read_ip_addr (input : List Char) : Option (IpAddr × List Char) :=
  match read_ipv4_addr input with
  | some (ip, rest) => some (IpAddr.v4 ip, rest)
  | none =>
    match read_ipv6_addr input with
    | some (ip, rest) => some (IpAddr.v6 ip, rest)
    | none => none

/-- Mirrors `Parser::read_socket_addr`: the v4 form first, otherwise v6. -/
def read_socket_addr (input : List Char) : Option ((IpAddr × Nat) × List Char) :=
  match read_socket_addr_v4 input with
  | some ((ip, port), rest) => some ((IpAddr.v4 ip, port), rest)
  | none =>
    match read_socket_addr_v6 input with
    | some ((ip, port), rest) => some ((IpAddr.v6 ip, port), rest)
    | none => none

/-- Mirrors `Parser::parse_with` / `FromStr`: the reader must consume the
entire input. -/
def parse_full {α : Type} (p : List Char → Option (α × List Char))
    (s : List Char) : Option α :=
  match p s with
  | some (v, []) => some v
  | _ => none

/-- `s.parse::<IpAddr>()`. -/
def parse_ip_addr (s : List Char) : Option IpAddr := parse_full read_ip_addr s

/-- `s.parse::<SocketAddr>()`, as the IP and the port. -/
def parse_socket_addr (s : List Char) : Option (IpAddr × Nat) :=
  parse_full read_socket_addr s

/-- Mirrors `str::parse::<u16>` (`from_str_radix` base 10): an optional
leading `+`, then one or more decimal digits, failing on overflow. -/
def parse_u16 (s : List Char) : Option Nat :=
  let digits := match s with
                | '+' :: rest => rest
                | other => other
  if digits.isEmpty then none
  else if digits.all Char.isDigit then
    let v := digitsVal 10 (digits.map (fun c => c.toNat - 48))
    if v ≤ 65535 then some v else none
  else none

/-- Mirrors `str::split_once(':')`: split at the first `:`, if any. -/
def splitOnceColon : List Char → Option (List Char × List Char)
  | [] => none
  | c :: cs =>
    if c = ':' then some ([], cs)
    else
      match splitOnceColon cs with
      | some (l, r) => some (c :: l, r)
      | none => none

/-- Mirrors `Host` from `net.rs`. -/
inductive Host
  | hostname (name : List Char)
  | ip (addr : IpAddr)
deriving DecidableEq, Repr

/-- Mirrors `HostAddr` from `net.rs`. -/
structure HostAddr where
  host : Host
  port : Nat
deriving DecidableEq, Repr

/-- Mirrors `HostAddr::parse_with_default_port`: a socket address, or a bare
IP with the default port, or `hostname[:port]` with a valid hostname. -/
def parse_with_default_port (host_addr : List Char) (default_port : Nat) :
    Option HostAddr :=
  match parse_socket_addr host_addr with
  | some (ip, port) => some ⟨Host.ip ip, port⟩
  | none =>
    match parse_ip_addr host_addr with
    | some ip => some ⟨Host.ip ip, default_port⟩
    | none =>
      match splitOnceColon host_addr with
      | some (hostname_str, port_str) =>
        match parse_u16 port_str with
        | none => none
        | some port =>
          if is_valid_hostname hostname_str then
            some ⟨Host.hostname hostname_str, port⟩
          else none
      | none =>
        if is_valid_hostname host_addr then
          some ⟨Host.hostname host_addr, default_port⟩
        else none

/-- ASCII character for a digit value (lower-case above 9). -/
def digitChar (d : Nat) : Char :=
  if d < 10 then Char.ofNat (48 + d) else Char.ofNat (87 + d)

/-- Little-endian decimal digits of `n`, with explicit fuel (`fuel ≥ n`
suffices). -/
def decDigitsRev : Nat → Nat → List Char
  | 0, _ => []
  | _ + 1, 0 => []
  | fuel + 1, n + 1 => digitChar ((n + 1) % 10) :: decDigitsRev fuel ((n + 1) / 10)

/-- Decimal display of a `Nat` (Rust `Display` for unsigned integers). -/
def decPrint (n : Nat) : List Char :=
  if n = 0 then ['0'] else (decDigitsRev n n).reverse

/-- Little-endian lower-case hex digits of `n`, with explicit fuel. -/
def hexDigitsRev : Nat → Nat → List Char
  | 0, _ => []
  | _ + 1, 0 => []
  | fuel + 1, n + 1 => digitChar ((n + 1) % 16) :: hexDigitsRev fuel ((n + 1) / 16)

/-- Lower-case hex display of a `Nat` (Rust `{:x}`). -/
def hexPrint (n : Nat) : List Char :=
  if n = 0 then ['0'] else (hexDigitsRev n n).reverse

/-- Rust `Display` for `Ipv4Addr`: `a.b.c.d`. -/
def ipv4Display (v : Ipv4) : List Char :=
  decPrint v.o1 ++ '.' :: decPrint v.o2 ++ '.' :: decPrint v.o3 ++ '.' :: decPrint v.o4

/-- Mirrors `Ipv6Addr::to_ipv4_mapped`. -/
def to_ipv4_mapped (ip : Ipv6) : Option Ipv4 :=
  match ip.segs with
  | [0, 0, 0, 0, 0, 65535, g6, g7] => some ⟨g6 / 256, g6 % 256, g7 / 256, g7 % 256⟩
  | _ => none

/-- The `fmt_subslice` helper of Rust's `Ipv6Addr` `Display`: hex groups
joined by `:`. -/
def fmtGroupsGo (isFirst : Bool) : List Nat → List Char
  | [] => []
  | g :: rest => (if isFirst then [] else [':']) ++ hexPrint g ++ fmtGroupsGo false rest

/-- Hex groups joined by `:`. -/
def fmtGroups (gs : List Nat) : List Char := fmtGroupsGo true gs

/-- One step of the zero-span search of Rust's `Ipv6Addr` `Display`: state is
`((longest.start, longest.len), (current.start, current.len), index)`. -/
def zeroRunStep (st : (Nat × Nat) × (Nat × Nat) × Nat) (seg : Nat) :
    (Nat × Nat) × (Nat × Nat) × Nat :=
  let ls := st.1.1
  let ll := st.1.2
  let cs := st.2.1.1
  let cl := st.2.1.2
  let i := st.2.2
  if seg = 0 then
    let cs' := if cl = 0 then i else cs
    let cl' := cl + 1
    if cl' > ll then ((cs', cl'), (cs', cl'), i + 1)
    else ((ls, ll), (cs', cl'), i + 1)
  else ((ls, ll), (0, 0), i + 1)

/-- The zero-span search of Rust's `Ipv6Addr` `Display`: the longest run of
zero groups (the first such run on ties), as `(start, length)`. -/
def longestZeroRun (segs : List Nat) : Nat × Nat :=
  (segs.foldl zeroRunStep ((0, 0), (0, 0), 0)).1

/-- Rust `Display` for `Ipv6Addr`: the IPv4-mapped special case, otherwise
`::`-compression of the longest zero run when it has length at least 2. -/
def ipv6Display (ip : Ipv6) : List Char :=
  match to_ipv4_mapped ip with
  | some v4 => ':' :: ':' :: 'f' :: 'f' :: 'f' :: 'f' :: ':' :: ipv4Display v4
  | none =>
    let z := longestZeroRun ip.segs
    if z.2 > 1 then
      fmtGroups (ip.segs.take z.1) ++ ':' :: ':' :: fmtGroups (ip.segs.drop (z.1 + z.2))
    else fmtGroups ip.segs

/-- Rust `Display` for `Host`: the hostname text, or the IP display. -/
def hostDisplay : Host → List Char
  | Host.hostname n => n
  | Host.ip (IpAddr.v4 v) => ipv4Display v
  | Host.ip (IpAddr.v6 v) => ipv6Display v

/-- Mirrors `Display` for `HostAddr`: brackets around IPv6 hosts, then
`:port` (the port is always printed). -/
def hostAddrDisplay (a : HostAddr) : List Char :=
  match a.host with
  | Host.ip (IpAddr.v6 _) => '[' :: (hostDisplay a.host ++ ']' :: ':' :: decPrint a.port)
  | _ => hostDisplay a.host ++ ':' :: decPrint a.port

theorem splitOnceColon_eq_some_iff (s h p : List Char) :
    splitOnceColon s = some (h, p) ↔ (s = h ++ ':' :: p ∧ ':' ∉ h) := by
  induction s generalizing h with
  | nil =>
    simp only [splitOnceColon]
    constructor
    · intro hx
      cases hx
    · rintro ⟨hx, -⟩
      exact absurd hx (by simp)
  | cons c cs ih =>
    simp only [splitOnceColon]
    by_cases hc : c = ':'
    · subst hc
      rw [if_pos rfl]
      constructor
      · intro hx
        injection hx with hx
        injection hx with h1 h2
        subst h1
        subst h2
        simp
      · rintro ⟨hx, hni⟩
        cases h with
        | nil =>
          simp at hx
          simp [hx]
        | cons a h' =>
          simp at hx
          obtain ⟨rfl, -⟩ := hx
          simp at hni
    · rw [if_neg hc]
      constructor
      · intro hx
        rcases hsp : splitOnceColon cs with - | ⟨l, r⟩ <;> rw [hsp] at hx
        · cases hx
        · injection hx with hx
          injection hx with h1 h2
          subst h1
          subst h2
          obtain ⟨h1, h2⟩ := (ih l).mp hsp
          refine ⟨by simp [h1], ?_⟩
          simp only [List.mem_cons, not_or]
          exact ⟨fun hcc => hc hcc.symm, h2⟩
      · rintro ⟨hx, hni⟩
        cases h with
        | nil =>
          simp at hx
          exact absurd hx.1 hc
        | cons a h' =>
          simp at hx
          obtain ⟨rfl, hx⟩ := hx
          simp only [List.mem_cons, not_or] at hni
          rw [(ih h').mpr ⟨hx, hni.2⟩]

theorem splitOnceColon_eq_none_iff (s : List Char) :
    splitOnceColon s = none ↔ ':' ∉ s := by
  induction s with
  | nil => simp [splitOnceColon]
  | cons c cs ih =>
    simp only [splitOnceColon]
    by_cases hc : c = ':'
    · subst hc
      simp
    · rw [if_neg hc]
      rcases hsp : splitOnceColon cs with _ | ⟨l, r⟩
      · constructor
        · intro _
          simp only [List.mem_cons, not_or]
          exact ⟨fun hcc => hc hcc.symm, ih.mp hsp⟩
        · intro _
          simp
      · constructor
        · intro hx
          simp at hx
        · intro hni
          simp only [List.mem_cons, not_or] at hni
          exact absurd ((ih.mpr hni.2).symm.trans hsp) (by simp)

/-- Claim C7: `parse_with_default_port(s, d)` succeeds with the embedded IP
and port when `s` parses as a socket address; with the IP and `d` when `s`
parses as a bare IP; with the hostname and parsed port when `s` splits at the
first `:` into a valid hostname and a string parsing as a `u16`; with the
hostname and `d` when `s` has no `:` and is a valid hostname; and fails in
every other case (invalid port or invalid hostname), the branches being
tried in this order. -/
theorem C7_parse_with_default_port_cases (s : List Char) (d : Nat) :
    (∀ ip port, parse_socket_addr s = some (ip, port) →
      parse_with_default_port s d = some ⟨Host.ip ip, port⟩) ∧
    (parse_socket_addr s = none →
      ∀ ip, parse_ip_addr s = some ip →
        parse_with_default_port s d = some ⟨Host.ip ip, d⟩) ∧
    (parse_socket_addr s = none → parse_ip_addr s = none →
      ∀ h p, s = h ++ ':' :: p → ':' ∉ h →
        parse_with_default_port s d =
          (match parse_u16 p with
           | some port =>
             if is_valid_hostname h then some ⟨Host.hostname h, port⟩ else none
           | none => none)) ∧
    (parse_socket_addr s = none → parse_ip_addr s = none → ':' ∉ s →
      parse_with_default_port s d =
        (if is_valid_hostname s then some ⟨Host.hostname s, d⟩ else none)) := by
  refine ⟨?_, ?_, ?_, ?_⟩
  · intro ip port hs
    simp [parse_with_default_port, hs]
  · intro hs ip hi
    simp [parse_with_default_port, hs, hi]
  · intro hs hi h p hsplit hni
    have hsp : splitOnceColon s = some (h, p) :=
      (splitOnceColon_eq_some_iff s h p).mpr ⟨hsplit, hni⟩
    simp only [parse_with_default_port, hs, hi, hsp]
    rcases parse_u16 p with - | port <;> simp
  · intro hs hi hni
    have hsp : splitOnceColon s = none := (splitOnceColon_eq_none_iff s).mpr hni
    simp [parse_with_default_port, hs, hi, hsp]

theorem C7_witness :
    parse_with_default_port ("127.0.0.1:100").toList 1337 =
      some ⟨Host.ip (IpAddr.v4 ⟨127, 0, 0, 1⟩), 100⟩ ∧
    parse_with_default_port ("google.com:1000").toList 1337 =
      (match parse_u16 ("1000").toList with
       | some port =>
         if is_valid_hostname ("google.com").toList then
           some ⟨Host.hostname ("google.com").toList, port⟩
         else none
       | none => none) :=
  ⟨(C7_parse_with_default_port_cases ("127.0.0.1:100").toList 1337).1
      (IpAddr.v4 ⟨127, 0, 0, 1⟩) 100 (by decide),
   (C7_parse_with_default_port_cases ("google.com:1000").toList 1337).2.2.1
      (by decide) (by decide) ("google.com").toList ("1000").toList
      (by decide) (by decide)⟩

/-- `c` is a digit of the given radix (`char::to_digit(radix).is_some()`). -/
def isRadixDigit (radix : Nat) (c : Char) : Bool := (toDigit radix c).isSome

/-- The digit value of `c`, defaulting to 0. -/
def digitValC (radix : Nat) (c : Char) : Nat :=
  match toDigit radix c with
  | some v => v
  | none => 0

/-- The input does not begin with a digit of the radix. -/
def headNotDigit (radix : Nat) : List Char → Prop
  | [] => True
  | c :: _ => isRadixDigit radix c = false

theorem headNotDigit_cons (radix : Nat) (c : Char) (cs : List Char)
    (h : isRadixDigit radix c = false) : headNotDigit radix (c :: cs) := h

theorem takeDigits_complete (radix : Nat) (cs rest : List Char)
    (hcs : ∀ c ∈ cs, isRadixDigit radix c = true)
    (hrest : headNotDigit radix rest) :
    takeDigits radix (cs ++ rest) = (cs.map (digitValC radix), rest) := by
  induction cs with
  | nil =>
    cases rest with
    | nil => rfl
    | cons c r =>
      have : toDigit radix c = none := by
        have hh : isRadixDigit radix c = false := hrest
        rcases hx : toDigit radix c with _ | v
        · rfl
        · rw [isRadixDigit, hx] at hh
          cases hh
      simp [takeDigits, this]
  | cons c cs' ih =>
    have hc := hcs c (by simp)
    simp only [isRadixDigit, Option.isSome_iff_exists] at hc
    obtain ⟨v, hv⟩ := hc
    have ih' := ih (fun x hx => hcs x (List.mem_cons_of_mem c hx))
    simp [takeDigits, hv, ih', digitValC]

theorem takeDigits_sound (radix : Nat) (input : List Char) (ds : List Nat)
    (rest : List Char) (h : takeDigits radix input = (ds, rest)) :
    ∃ cs, input = cs ++ rest ∧ (∀ c ∈ cs, isRadixDigit radix c = true) ∧
      headNotDigit radix rest ∧ ds = cs.map (digitValC radix) := by
  induction input generalizing ds with
  | nil =>
    simp only [takeDigits] at h
    injection h with h1 h2
    subst h1
    subst h2
    exact ⟨[], rfl, by simp, trivial, rfl⟩
  | cons c cs ih =>
    simp only [takeDigits] at h
    rcases hd : toDigit radix c with _ | v
    · rw [hd] at h
      injection h with h1 h2
      subst h1
      subst h2
      refine ⟨[], rfl, by simp, ?_, rfl⟩
      show isRadixDigit radix c = false
      simp [isRadixDigit, hd]
    · rw [hd] at h
      rcases hrec : takeDigits radix cs with ⟨ds', rest'⟩
      rw [hrec] at h
      injection h with h1 h2
      subst h1
      subst h2
      obtain ⟨cs', hcs1, hcs2, hcs3, hcs4⟩ := ih ds' hrec
      refine ⟨c :: cs', by simp [hcs1], ?_, hcs3, ?_⟩
      · intro x hx
        rcases List.mem_cons.mp hx with rfl | hx'
        · simp [isRadixDigit, hd]
        · exact hcs2 x hx'
      · simp [hcs4, digitValC, hd]

theorem read_number_none_of_headNotDigit (radix : Nat) (maxD : Option Nat)
    (allowZ : Bool) (cap : Nat) (input : List Char)
    (h : headNotDigit radix input) :
    read_number radix maxD allowZ cap input = none := by
  have : takeDigits radix input = ([], input) := by
    have := takeDigits_complete radix [] input (by simp) h
    simpa using this
  simp [read_number, this]

theorem read_number_complete (radix : Nat) (maxD : Option Nat) (allowZ : Bool)
    (cap : Nat) (cs rest : List Char)
    (hcs : ∀ c ∈ cs, isRadixDigit radix c = true)
    (hne : cs ≠ [])
    (hrest : headNotDigit radix rest)
    (hmax : ∀ m, maxD = some m → cs.length ≤ m)
    (hzero : allowZ = false → cs.head? = some '0' → cs.length = 1)
    (hcap : digitsVal radix (cs.map (digitValC radix)) ≤ cap) :
    read_number radix maxD allowZ cap (cs ++ rest) =
      some (digitsVal radix (cs.map (digitValC radix)), rest) := by
  have htd := takeDigits_complete radix cs rest hcs hrest
  simp only [read_number, htd]
  rw [if_neg, if_neg, if_neg, if_neg]
  · omega
  · intro hcon
    simp only [Bool.and_eq_true, Bool.not_eq_eq_eq_not, Bool.not_true,
      decide_eq_true_eq] at hcon
    obtain ⟨⟨hz, hlead⟩, hlen⟩ := hcon
    have hz' : allowZ = false := by
      cases allowZ
      · rfl
      · cases hz
    have hhead : cs.head? = some '0' := by
      cases cs with
      | nil => exact absurd rfl hne
      | cons a l =>
        simp only [List.cons_append, List.head?_cons, beq_iff_eq] at hlead ⊢
        simpa using hlead
    have := hzero hz' hhead
    simp at hlen
    omega
  · intro hcon
    rcases maxD with _ | m
    · simp at hcon
    · simp only [decide_eq_true_eq] at hcon
      have := hmax m rfl
      simp at hcon
      omega
  · simp [hne]

theorem read_number_sound (radix : Nat) (maxD : Option Nat) (allowZ : Bool)
    (cap : Nat) (input : List Char) (v : Nat) (rest : List Char)
    (h : read_number radix maxD allowZ cap input = some (v, rest)) :
    ∃ cs, input = cs ++ rest ∧ cs ≠ [] ∧
      (∀ c ∈ cs, isRadixDigit radix c = true) ∧ headNotDigit radix rest ∧
      (∀ m, maxD = some m → cs.length ≤ m) ∧
      (allowZ = false → cs.head? = some '0' → cs.length = 1) ∧
      digitsVal radix (cs.map (digitValC radix)) = v ∧ v ≤ cap := by
  simp only [read_number] at h
  rcases htd : takeDigits radix input with ⟨ds, rest'⟩
  rw [htd] at h
  split at h
  · cases h
  · split at h
    · cases h
    · split at h
      · cases h
      · split at h
        · cases h
        · rename_i h1 h2 h3 h4
          injection h with hpair
          injection hpair with hv hr
          subst hr
          obtain ⟨cs, hcs1, hcs2, hcs3, hcs4⟩ :=
            takeDigits_sound radix input ds rest' htd
          subst hcs1
          refine ⟨cs, rfl, ?_, hcs2, hcs3, ?_, ?_, ?_, ?_⟩
          · intro hcon
            subst hcon
            simp [hcs4] at h1
          · intro m hm
            subst hm
            simp only [decide_eq_true_eq] at h2
            simp [hcs4] at h2
            omega
          · intro ha hh
            subst ha
            by_contra hlen
            apply h3
            rcases cs with _ | ⟨a, l⟩
            · simp [hcs4] at h1
            · simp only [List.head?_cons] at hh
              injection hh with hh2
              subst hh2
              simp only [List.length_cons] at hlen
              simp [hcs4]
              omega
          · rw [← hv, hcs4]
          · rw [← hv]
            exact Nat.le_of_not_lt h4

theorem toNat_ofNat_small (k : Nat) (h : k < 55296) : (Char.ofNat k).toNat = k := by
  unfold Char.ofNat
  rw [dif_pos (Or.inl h)]
  simp [Char.ofNatAux, Char.toNat, UInt32.ofNat', UInt32.toNat]

theorem char_eq_of_toNat_eq {a b : Char} (h : a.toNat = b.toNat) : a = b := by
  rw [← Char.ofNat_toNat a, ← Char.ofNat_toNat b, h]

theorem toNat_digitChar_lt (d : Nat) (h : d < 10) : (digitChar d).toNat = 48 + d := by
  rw [digitChar, if_pos h, toNat_ofNat_small _ (by omega)]

theorem toNat_digitChar_ge (d : Nat) (h1 : ¬d < 10) (h2 : d < 36) :
    (digitChar d).toNat = 87 + d := by
  rw [digitChar, if_neg h1, toNat_ofNat_small _ (by omega)]

theorem toDigit_digitChar (radix d : Nat) (hr : radix ≤ 36) (hd : d < radix) :
    toDigit radix (digitChar d) = some d := by
  by_cases h10 : d < 10
  · have ht := toNat_digitChar_lt d h10
    simp only [toDigit, charDigitVal, ht]
    rw [if_pos (by omega)]
    have h48 : 48 + d - 48 = d := by omega
    rw [h48]
    simp [hd]
  · have ht := toNat_digitChar_ge d h10 (by omega)
    simp only [toDigit, charDigitVal, ht]
    rw [if_neg (by omega), if_pos (by omega)]
    have h87 : 87 + d - 87 = d := by omega
    rw [h87]
    simp [hd]

theorem isRadixDigit_digitChar (radix d : Nat) (hr : radix ≤ 36) (hd : d < radix) :
    isRadixDigit radix (digitChar d) = true := by
  simp [isRadixDigit, toDigit_digitChar radix d hr hd]

theorem digitValC_digitChar (radix d : Nat) (hr : radix ≤ 36) (hd : d < radix) :
    digitValC radix (digitChar d) = d := by
  simp [digitValC, toDigit_digitChar radix d hr hd]

theorem digitChar_eq_zero_iff (d : Nat) (h : d < 36) : digitChar d = '0' ↔ d = 0 := by
  constructor
  · intro hc
    by_cases h10 : d < 10
    · have := toNat_digitChar_lt d h10
      rw [hc] at this
      have h0 : ('0').toNat = 48 := by decide
      omega
    · have := toNat_digitChar_ge d h10 h
      rw [hc] at this
      have h0 : ('0').toNat = 48 := by decide
      omega
  · intro hd
    subst hd
    decide

theorem decDigitsRev_eq (fuel n : Nat) (h : n ≤ fuel) :
    decDigitsRev fuel n = (Nat.digits 10 n).map digitChar := by
  induction fuel generalizing n with
  | zero =>
    obtain rfl := Nat.le_zero.mp h
    simp [decDigitsRev]
  | succ f ih =>
    cases n with
    | zero => simp [decDigitsRev]
    | succ m =>
      rw [decDigitsRev, Nat.digits_def' (by norm_num : (1:ℕ) < 10) (Nat.succ_pos m)]
      simp only [List.map_cons, List.cons.injEq, true_and]
      apply ih
      have : (m + 1) / 10 < m + 1 := Nat.div_lt_self (Nat.succ_pos m) (by norm_num)
      omega

theorem hexDigitsRev_eq (fuel n : Nat) (h : n ≤ fuel) :
    hexDigitsRev fuel n = (Nat.digits 16 n).map digitChar := by
  induction fuel generalizing n with
  | zero =>
    obtain rfl := Nat.le_zero.mp h
    simp [hexDigitsRev]
  | succ f ih =>
    cases n with
    | zero => simp [hexDigitsRev]
    | succ m =>
      rw [hexDigitsRev, Nat.digits_def' (by norm_num : (1:ℕ) < 16) (Nat.succ_pos m)]
      simp only [List.map_cons, List.cons.injEq, true_and]
      apply ih
      have : (m + 1) / 16 < m + 1 := Nat.div_lt_self (Nat.succ_pos m) (by norm_num)
      omega

theorem decPrint_eq (n : Nat) (h : n ≠ 0) :
    decPrint n = ((Nat.digits 10 n).map digitChar).reverse := by
  rw [decPrint, if_neg h, decDigitsRev_eq n n le_rfl]

theorem hexPrint_eq (n : Nat) (h : n ≠ 0) :
    hexPrint n = ((Nat.digits 16 n).map digitChar).reverse := by
  rw [hexPrint, if_neg h, hexDigitsRev_eq n n le_rfl]

theorem foldl_digitsVal_acc (radix : Nat) (ds : List Nat) (acc : Nat) :
    List.foldl (fun a d => a * radix + d) acc ds =
      acc * radix ^ ds.length + digitsVal radix ds := by
  induction ds generalizing acc with
  | nil => simp [digitsVal]
  | cons d t ih =>
    simp only [List.foldl_cons, digitsVal, List.length_cons]
    rw [ih (acc * radix + d), ih (0 * radix + d)]
    ring

theorem digitsVal_reverse_eq_ofDigits (radix : Nat) (l : List Nat) :
    digitsVal radix l.reverse = Nat.ofDigits radix l := by
  induction l with
  | nil => simp [digitsVal, Nat.ofDigits]
  | cons d t ih =>
    rw [List.reverse_cons]
    simp only [digitsVal, List.foldl_append, List.foldl_cons, List.foldl_nil]
    simp only [digitsVal] at ih
    rw [Nat.ofDigits_cons, ih]
    ring

theorem map_digitValC_digits (radix : Nat) (hr1 : 1 < radix) (hr2 : radix ≤ 36)
    (n : Nat) :
    ((Nat.digits radix n).map digitChar).map (digitValC radix) =
      Nat.digits radix n := by
  rw [List.map_map]
  apply List.map_congr_left ?_ |>.trans (List.map_id _)
  intro d hd
  exact digitValC_digitChar radix d hr2 (Nat.digits_lt_base hr1 hd)

theorem digitsVal_decPrint (n : Nat) :
    digitsVal 10 ((decPrint n).map (digitValC 10)) = n := by
  by_cases h : n = 0
  · subst h
    decide
  · rw [decPrint_eq n h, List.map_reverse,
      map_digitValC_digits 10 (by norm_num) (by norm_num) n,
      digitsVal_reverse_eq_ofDigits, Nat.ofDigits_digits]

theorem digitsVal_hexPrint (n : Nat) :
    digitsVal 16 ((hexPrint n).map (digitValC 16)) = n := by
  by_cases h : n = 0
  · subst h
    decide
  · rw [hexPrint_eq n h, List.map_reverse,
      map_digitValC_digits 16 (by norm_num) (by norm_num) n,
      digitsVal_reverse_eq_ofDigits, Nat.ofDigits_digits]

theorem decPrint_ne_nil (n : Nat) : decPrint n ≠ [] := by
  by_cases h : n = 0
  · subst h
    decide
  · rw [decPrint_eq n h]
    simp [Nat.digits_ne_nil_iff_ne_zero.mpr h]

theorem hexPrint_ne_nil (n : Nat) : hexPrint n ≠ [] := by
  by_cases h : n = 0
  · subst h
    decide
  · rw [hexPrint_eq n h]
    simp [Nat.digits_ne_nil_iff_ne_zero.mpr h]

theorem decPrint_digits (n : Nat) : ∀ c ∈ decPrint n, isRadixDigit 10 c = true := by
  by_cases h : n = 0
  · subst h
    decide
  · rw [decPrint_eq n h]
    intro c hc
    simp only [List.mem_reverse, List.mem_map] at hc
    obtain ⟨d, hd, rfl⟩ := hc
    exact isRadixDigit_digitChar 10 d (by norm_num)
      (Nat.digits_lt_base (by norm_num) hd)

theorem hexPrint_digits (n : Nat) : ∀ c ∈ hexPrint n, isRadixDigit 16 c = true := by
  by_cases h : n = 0
  · subst h
    decide
  · rw [hexPrint_eq n h]
    intro c hc
    simp only [List.mem_reverse, List.mem_map] at hc
    obtain ⟨d, hd, rfl⟩ := hc
    exact isRadixDigit_digitChar 16 d (by norm_num)
      (Nat.digits_lt_base (by norm_num) hd)

theorem decPrint_head_zero (n : Nat) (h : (decPrint n).head? = some '0') :
    (decPrint n).length = 1 := by
  by_cases hn : n = 0
  · subst hn
    decide
  · exfalso
    have hLne : Nat.digits 10 n ≠ [] := Nat.digits_ne_nil_iff_ne_zero.mpr hn
    rw [decPrint_eq n hn, List.head?_reverse, List.getLast?_map,
      List.getLast?_eq_getLast _ hLne] at h
    simp only [Option.map_some'] at h
    injection h with h
    have hlt : (Nat.digits 10 n).getLast hLne < 10 :=
      Nat.digits_lt_base (by norm_num) (List.getLast_mem hLne)
    exact Nat.getLast_digit_ne_zero 10 hn
      ((digitChar_eq_zero_iff _ (by omega)).mp h)

theorem decPrint_length_le (n k : Nat) (hk : 1 ≤ k) (h : n < 10 ^ k) :
    (decPrint n).length ≤ k := by
  by_cases hn : n = 0
  · subst hn
    simpa using hk
  · rw [decPrint_eq n hn]
    simp only [List.length_reverse, List.length_map]
    rw [Nat.digits_len 10 n (by norm_num) hn]
    have := Nat.log_lt_of_lt_pow hn h
    omega

theorem hexPrint_length_le (n k : Nat) (hk : 1 ≤ k) (h : n < 16 ^ k) :
    (hexPrint n).length ≤ k := by
  by_cases hn : n = 0
  · subst hn
    simpa using hk
  · rw [hexPrint_eq n hn]
    simp only [List.length_reverse, List.length_map]
    rw [Nat.digits_len 16 n (by norm_num) hn]
    have := Nat.log_lt_of_lt_pow hn h
    omega

theorem toDigit10_charac (c : Char) (v : Nat) (h : toDigit 10 c = some v) :
    48 ≤ c.toNat ∧ c.toNat ≤ 57 ∧ v = c.toNat - 48 := by
  simp only [toDigit] at h
  rcases hcv : charDigitVal c with _ | w
  · rw [hcv] at h
    cases h
  · rw [hcv] at h
    have h2 : (if w < 10 then some w else none) = some v := h
    have hw : w < 10 := by
      by_cases hlt : w < 10
      · exact hlt
      · rw [if_neg hlt] at h2
        cases h2
    rw [if_pos hw] at h2
    injection h2 with h2
    subst h2
    simp only [charDigitVal] at hcv
    split at hcv
    · rename_i h1
      injection hcv with hcv
      omega
    · split at hcv
      · rename_i h1 h2
        injection hcv with hcv
        omega
      · split at hcv
        · rename_i h1 h2 h3
          injection hcv with hcv
          omega
        · cases hcv

theorem toDigit16_charac (c : Char) (v : Nat) (h : toDigit 16 c = some v) :
    (48 ≤ c.toNat ∧ c.toNat ≤ 57) ∨ (97 ≤ c.toNat ∧ c.toNat ≤ 102) ∨
      (65 ≤ c.toNat ∧ c.toNat ≤ 70) := by
  simp only [toDigit] at h
  rcases hcv : charDigitVal c with _ | w
  · rw [hcv] at h
    cases h
  · rw [hcv] at h
    have h2 : (if w < 16 then some w else none) = some v := h
    have hw : w < 16 := by
      by_cases hlt : w < 16
      · exact hlt
      · rw [if_neg hlt] at h2
        cases h2
    rw [if_pos hw] at h2
    injection h2 with h2
    subst h2
    simp only [charDigitVal] at hcv
    split at hcv
    · rename_i h1
      injection hcv with hcv
      omega
    · split at hcv
      · rename_i h1 h2
        injection hcv with hcv
        omega
      · split at hcv
        · rename_i h1 h2 h3
          injection hcv with hcv
          omega
        · cases hcv

theorem isRadixDigit10_charac (c : Char) (h : isRadixDigit 10 c = true) :
    48 ≤ c.toNat ∧ c.toNat ≤ 57 := by
  simp only [isRadixDigit, Option.isSome_iff_exists] at h
  obtain ⟨v, hv⟩ := h
  have := toDigit10_charac c v hv
  omega

theorem isRadixDigit16_charac (c : Char) (h : isRadixDigit 16 c = true) :
    (48 ≤ c.toNat ∧ c.toNat ≤ 57) ∨ (97 ≤ c.toNat ∧ c.toNat ≤ 102) ∨
      (65 ≤ c.toNat ∧ c.toNat ≤ 70) := by
  simp only [isRadixDigit, Option.isSome_iff_exists] at h
  obtain ⟨v, hv⟩ := h
  exact toDigit16_charac c v hv

theorem isRadixDigit16_ne (c : Char) (h : isRadixDigit 16 c = true) :
    c ≠ '.' ∧ c ≠ ':' ∧ c ≠ ']' ∧ c ≠ '[' := by
  have hc := isRadixDigit16_charac c h
  refine ⟨?_, ?_, ?_, ?_⟩ <;> intro hx <;> subst hx <;>
    revert hc <;> decide

theorem digitValC10_lt (c : Char) (h : isRadixDigit 10 c = true) :
    digitValC 10 c < 10 := by
  simp only [isRadixDigit, Option.isSome_iff_exists] at h
  obtain ⟨v, hv⟩ := h
  have h10 := toDigit10_charac c v hv
  simp [digitValC, hv]
  omega

theorem digitChar_digitValC10 (c : Char) (h : isRadixDigit 10 c = true) :
    digitChar (digitValC 10 c) = c := by
  simp only [isRadixDigit, Option.isSome_iff_exists] at h
  obtain ⟨v, hv⟩ := h
  obtain ⟨h1, h2, h3⟩ := toDigit10_charac c v hv
  simp only [digitValC, hv]
  subst h3
  rw [digitChar, if_pos (by omega)]
  apply char_eq_of_toNat_eq
  rw [toNat_ofNat_small _ (by omega)]
  omega

theorem digitValC10_zero (c : Char) (h : isRadixDigit 10 c = true)
    (hz : digitValC 10 c = 0) : c = '0' := by
  have := digitChar_digitValC10 c h
  rw [hz] at this
  rw [← this]
  rfl

/-- The accepted decimal-octet strings of `read_number(10, Some(3), false)`
capped at 255. -/
def octetStr (cs : List Char) (n : Nat) : Prop :=
  cs ≠ [] ∧ (∀ c ∈ cs, isRadixDigit 10 c = true) ∧ cs.length ≤ 3 ∧
  (cs.head? = some '0' → cs.length = 1) ∧
  digitsVal 10 (cs.map (digitValC 10)) = n ∧ n ≤ 255

theorem octetStr_decPrint (n : Nat) (h : n ≤ 255) : octetStr (decPrint n) n :=
  ⟨decPrint_ne_nil n, decPrint_digits n,
   decPrint_length_le n 3 (by norm_num) (by omega),
   decPrint_head_zero n, digitsVal_decPrint n, h⟩

theorem digitsVal_cons_lower (radix d : Nat) (ds : List Nat) :
    digitsVal radix (d :: ds) = d * radix ^ ds.length + digitsVal radix ds := by
  simp only [digitsVal, List.foldl_cons]
  rw [foldl_digitsVal_acc]
  simp [digitsVal]

theorem octetStr_unique (cs : List Char) (n : Nat) (h : octetStr cs n) :
    cs = decPrint n := by
  obtain ⟨hne, hdig, hlen, hzero, hval, hcap⟩ := h
  by_cases hn : n = 0
  · subst hn
    cases cs with
    | nil => exact absurd rfl hne
    | cons c t =>
      cases t with
      | nil =>
        simp only [List.map_cons, List.map_nil] at hval
        have hd0 : digitValC 10 c = 0 := by
          simp [digitsVal] at hval
          exact hval
        rw [digitValC10_zero c (hdig c (by simp)) hd0]
        rfl
      | cons c2 t2 =>
        exfalso
        have hc : c ≠ '0' := by
          intro hx
          subst hx
          have := hzero rfl
          simp at this
        have hv1 : 1 ≤ digitValC 10 c := by
          rcases Nat.eq_zero_or_pos (digitValC 10 c) with h0 | h0
          · exact absurd (digitValC10_zero c (hdig c (by simp)) h0) hc
          · exact h0
        rw [List.map_cons, digitsVal_cons_lower] at hval
        have : 0 < 10 ^ (List.map (digitValC 10) (c2 :: t2)).length :=
          Nat.pos_pow_of_pos _ (by norm_num)
        nlinarith
  · have hdlt : ∀ d ∈ cs.map (digitValC 10), d < 10 := by
      intro d hd
      simp only [List.mem_map] at hd
      obtain ⟨c, hc, rfl⟩ := hd
      exact digitValC10_lt c (hdig c hc)
    have hofd : Nat.ofDigits 10 ((cs.map (digitValC 10)).reverse) = n := by
      rw [← digitsVal_reverse_eq_ofDigits, List.reverse_reverse]
      exact hval
    have hgl : ∀ hh : (cs.map (digitValC 10)).reverse ≠ [],
        ((cs.map (digitValC 10)).reverse).getLast hh ≠ 0 := by
      intro hh hz
      have hq := List.getLast?_eq_getLast ((cs.map (digitValC 10)).reverse) hh
      rw [hz] at hq
      cases cs with
      | nil => exact absurd rfl hne
      | cons c t =>
        rw [List.map_cons, List.reverse_cons, List.getLast?_concat] at hq
        injection hq with hq
        have hc0 : c = '0' := digitValC10_zero c (hdig c (by simp)) hq
        subst hc0
        have h1 := hzero rfl
        cases t with
        | nil =>
          simp only [List.map_cons, List.map_nil] at hval
          have hdv : digitValC 10 '0' = 0 := by decide
          simp [digitsVal, hdv] at hval
          exact hn hval.symm
        | cons x y => simp at h1
    have hdigits : Nat.digits 10 n = (cs.map (digitValC 10)).reverse := by
      rw [← hofd]
      exact Nat.digits_ofDigits 10 (by norm_num) _
        (fun d hd => hdlt d (List.mem_reverse.mp hd)) hgl
    rw [decPrint_eq n hn, hdigits, List.map_reverse, List.reverse_reverse,
      List.map_map]
    symm
    calc cs.map (digitChar ∘ digitValC 10)
        = cs.map id :=
          List.map_congr_left (fun c hc => digitChar_digitValC10 c (hdig c hc))
      _ = cs := List.map_id cs

theorem read_number_octet_of (cs : List Char) (n : Nat) (h : octetStr cs n)
    (rest : List Char) (hrest : headNotDigit 10 rest) :
    read_number 10 (some 3) false 255 (cs ++ rest) = some (n, rest) := by
  obtain ⟨hne, hdig, hlen, hzero, hval, hcap⟩ := h
  have hres := read_number_complete 10 (some 3) false 255 cs rest hdig hne hrest
    (fun m hm => by injection hm with hm; omega)
    (fun _ h0 => hzero h0)
    (by rw [hval]; exact hcap)
  rw [hval] at hres
  exact hres

theorem read_number_octet_sound (input : List Char) (n : Nat) (rest : List Char)
    (h : read_number 10 (some 3) false 255 input = some (n, rest)) :
    ∃ cs, input = cs ++ rest ∧ octetStr cs n ∧ headNotDigit 10 rest := by
  obtain ⟨cs, h1, h2, h3, h4, h5, h6, h7, h8⟩ := read_number_sound _ _ _ _ _ _ _ h
  exact ⟨cs, h1, ⟨h2, h3, h5 3 rfl, h6 rfl, h7, h8⟩, h4⟩

theorem read_number_port_print (p : Nat) (hp : p ≤ 65535) (rest : List Char)
    (hrest : headNotDigit 10 rest) :
    read_number 10 none true 65535 (decPrint p ++ rest) = some (p, rest) := by
  have hres := read_number_complete 10 none true 65535 (decPrint p) rest
    (decPrint_digits p) (decPrint_ne_nil p) hrest
    (fun m hm => by cases hm)
    (fun hab => absurd hab (by decide))
    (by rw [digitsVal_decPrint]; exact hp)
  rw [digitsVal_decPrint] at hres
  exact hres

theorem read_number_group_print (g : Nat) (hg : g ≤ 65535) (rest : List Char)
    (hrest : headNotDigit 16 rest) :
    read_number 16 (some 4) true 65535 (hexPrint g ++ rest) = some (g, rest) := by
  have hres := read_number_complete 16 (some 4) true 65535 (hexPrint g) rest
    (hexPrint_digits g) (hexPrint_ne_nil g) hrest
    (fun m hm => by
      injection hm with hm
      have := hexPrint_length_le g 4 (by norm_num) (by omega)
      omega)
    (fun hab => absurd hab (by decide))
    (by rw [digitsVal_hexPrint]; exact hg)
  rw [digitsVal_hexPrint] at hres
  exact hres

theorem read_given_char_cons {c : Char} (r : List Char) :
    read_given_char c (c :: r) = some ((), r) := by
  simp [read_given_char]

theorem read_given_char_sound {c : Char} {input r : List Char} {u : Unit}
    (h : read_given_char c input = some (u, r)) : input = c :: r := by
  cases input with
  | nil => cases h
  | cons x xs =>
    simp only [read_given_char] at h
    by_cases hx : x = c
    · rw [if_pos hx] at h
      injection h with h
      injection h with h1 h2
      subst h2
      subst hx
      rfl
    · rw [if_neg hx] at h
      cases h

theorem read_ipv4_complete (c1 c2 c3 c4 : List Char) (n1 n2 n3 n4 : Nat)
    (h1 : octetStr c1 n1) (h2 : octetStr c2 n2) (h3 : octetStr c3 n3)
    (h4 : octetStr c4 n4) (rest : List Char) (hrest : headNotDigit 10 rest) :
    read_ipv4_addr (c1 ++ '.' :: (c2 ++ '.' :: (c3 ++ '.' :: (c4 ++ rest)))) =
      some (⟨n1, n2, n3, n4⟩, rest) := by
  have e1 := read_number_octet_of c1 n1 h1
    ('.' :: (c2 ++ '.' :: (c3 ++ '.' :: (c4 ++ rest))))
    (headNotDigit_cons 10 '.' _ (by decide))
  have e2 := read_number_octet_of c2 n2 h2
    ('.' :: (c3 ++ '.' :: (c4 ++ rest)))
    (headNotDigit_cons 10 '.' _ (by decide))
  have e3 := read_number_octet_of c3 n3 h3
    ('.' :: (c4 ++ rest))
    (headNotDigit_cons 10 '.' _ (by decide))
  have e4 := read_number_octet_of c4 n4 h4 rest hrest
  simp [read_ipv4_addr, e1, e2, e3, e4, read_given_char_cons]

theorem read_ipv4_sound (input : List Char) (v : Ipv4) (rest : List Char)
    (h : read_ipv4_addr input = some (v, rest)) :
    input = ipv4Display v ++ rest ∧
      (v.o1 ≤ 255 ∧ v.o2 ≤ 255 ∧ v.o3 ≤ 255 ∧ v.o4 ≤ 255) ∧
      headNotDigit 10 rest := by
  simp only [read_ipv4_addr, Option.bind_eq_bind] at h
  rcases hx1 : read_number 10 (some 3) false 255 input with _ | ⟨n1, r1⟩ <;>
    rw [hx1] at h
  · cases h
  simp only [Option.some_bind] at h
  rcases hg1 : read_given_char '.' r1 with _ | ⟨u1, r2⟩ <;> rw [hg1] at h
  · cases h
  simp only [Option.some_bind] at h
  rcases hx2 : read_number 10 (some 3) false 255 r2 with _ | ⟨n2, r3⟩ <;>
    rw [hx2] at h
  · cases h
  simp only [Option.some_bind] at h
  rcases hg2 : read_given_char '.' r3 with _ | ⟨u2, r4⟩ <;> rw [hg2] at h
  · cases h
  simp only [Option.some_bind] at h
  rcases hx3 : read_number 10 (some 3) false 255 r4 with _ | ⟨n3, r5⟩ <;>
    rw [hx3] at h
  · cases h
  simp only [Option.some_bind] at h
  rcases hg3 : read_given_char '.' r5 with _ | ⟨u3, r6⟩ <;> rw [hg3] at h
  · cases h
  simp only [Option.some_bind] at h
  rcases hx4 : read_number 10 (some 3) false 255 r6 with _ | ⟨n4, r7⟩ <;>
    rw [hx4] at h
  · cases h
  simp only [Option.some_bind] at h
  injection h with h
  injection h with hv hr
  subst hr
  obtain ⟨cs1, hc1, ho1, _⟩ := read_number_octet_sound input n1 r1 hx1
  obtain ⟨cs2, hc2, ho2, _⟩ := read_number_octet_sound r2 n2 r3 hx2
  obtain ⟨cs3, hc3, ho3, _⟩ := read_number_octet_sound r4 n3 r5 hx3
  obtain ⟨cs4, hc4, ho4, hnd⟩ := read_number_octet_sound r6 n4 r7 hx4
  have hr1 := read_given_char_sound hg1
  have hr3 := read_given_char_sound hg2
  have hr5 := read_given_char_sound hg3
  subst hv
  refine ⟨?_, ⟨ho1.2.2.2.2.2, ho2.2.2.2.2.2, ho3.2.2.2.2.2, ho4.2.2.2.2.2⟩, hnd⟩
  rw [hc1, hr1, hc2, hr3, hc3, hr5, hc4]
  rw [octetStr_unique cs1 n1 ho1, octetStr_unique cs2 n2 ho2,
    octetStr_unique cs3 n3 ho3, octetStr_unique cs4 n4 ho4]
  simp [ipv4Display]

theorem exists_decimal_split (xs : List Char) :
    ∃ p q, xs = p ++ q ∧ (∀ c ∈ p, isRadixDigit 10 c = true) ∧
      headNotDigit 10 q := by
  induction xs with
  | nil => exact ⟨[], [], rfl, by simp, trivial⟩
  | cons c cs ih =>
    by_cases hc : isRadixDigit 10 c = true
    · obtain ⟨p, q, h1, h2, h3⟩ := ih
      refine ⟨c :: p, q, by simp [h1], ?_, h3⟩
      intro x hx
      rcases List.mem_cons.mp hx with rfl | hx'
      · exact hc
      · exact h2 x hx'
    · exact ⟨[], c :: cs, rfl, by simp,
        headNotDigit_cons 10 c cs (by simpa using hc)⟩

theorem read_ipv4_none_aux (p tail : List Char)
    (hp : ∀ c ∈ p, isRadixDigit 10 c = true)
    (h1 : headNotDigit 10 tail) (h2 : tail.head? ≠ some '.') :
    read_ipv4_addr (p ++ tail) = none := by
  simp only [read_ipv4_addr, Option.bind_eq_bind]
  rcases hrn : read_number 10 (some 3) false 255 (p ++ tail) with _ | ⟨v, r1⟩
  · simp
  · simp only [Option.some_bind]
    obtain ⟨cs, hinput, _, hcsdig, hndr1, _, _, _, _⟩ :=
      read_number_sound _ _ _ _ _ _ _ hrn
    have htd1 := takeDigits_complete 10 p tail hp h1
    have htd2 := takeDigits_complete 10 cs r1 hcsdig hndr1
    rw [← hinput] at htd2
    rw [htd1] at htd2
    injection htd2 with _ hr1
    subst hr1
    have hgc : read_given_char '.' tail = none := by
      cases tail with
      | nil => rfl
      | cons c t =>
        simp only [List.head?_cons, ne_eq] at h2
        have hcne : c ≠ '.' := fun hx => h2 (by rw [hx])
        simp [read_given_char, hcne]
    rw [hgc]
    simp

theorem read_ipv4_none_of_sep (xs tail : List Char)
    (hx : ∀ c ∈ xs, isRadixDigit 16 c = true)
    (h1 : headNotDigit 10 tail) (h2 : tail.head? ≠ some '.') :
    read_ipv4_addr (xs ++ tail) = none := by
  obtain ⟨p, q, hsplit, hpdec, hqnd⟩ := exists_decimal_split xs
  subst hsplit
  rw [List.append_assoc]
  cases q with
  | nil => exact read_ipv4_none_aux p tail hpdec h1 h2
  | cons c q' =>
    have hchex : isRadixDigit 16 c = true := hx c (by simp)
    refine read_ipv4_none_aux p (c :: (q' ++ tail)) hpdec ?_ ?_
    · exact headNotDigit_cons 10 c _ (by simpa using hqnd)
    · simp only [List.head?_cons, ne_eq]
      intro hcon
      injection hcon with hcon
      exact (isRadixDigit16_ne c hchex).1 hcon

theorem read_separator_zero {α : Type} (sep : Char)
    (f : List Char → Option (α × List Char)) (xs : List Char) :
    read_separator sep 0 f xs = f xs := by
  simp [read_separator]

theorem read_separator_pos {α : Type} (sep : Char) (i : Nat) (hi : i ≠ 0)
    (f : List Char → Option (α × List Char)) (xs : List Char) :
    read_separator sep i f (sep :: xs) = f xs := by
  simp [read_separator, hi, read_given_char_cons]

theorem read_separator_fail {α : Type} (sep : Char) (i : Nat) (hi : i ≠ 0)
    (f : List Char → Option (α × List Char)) (c : Char) (xs : List Char)
    (hc : c ≠ sep) : read_separator sep i f (c :: xs) = none := by
  simp [read_separator, hi, read_given_char, hc]

theorem read_separator_nil {α : Type} (sep : Char) (i : Nat) (hi : i ≠ 0)
    (f : List Char → Option (α × List Char)) :
    read_separator sep i f [] = none := by
  simp [read_separator, hi, read_given_char]

/-- The shapes of input directly after a printed group run: end of input, a
closing bracket, or the `::` compression marker. -/
def stopOk (rest : List Char) : Prop :=
  rest = [] ∨ (∃ r', rest = ']' :: r') ∨ (∃ r', rest = ':' :: ':' :: r')

theorem stopOk_headNotDigit16 (rest : List Char) (h : stopOk rest) :
    headNotDigit 16 rest := by
  rcases h with rfl | ⟨r', rfl⟩ | ⟨r', rfl⟩
  · trivial
  · exact headNotDigit_cons 16 ']' r' (by decide)
  · exact headNotDigit_cons 16 ':' _ (by decide)

theorem stopOk_headNotDigit10 (rest : List Char) (h : stopOk rest) :
    headNotDigit 10 rest := by
  rcases h with rfl | ⟨r', rfl⟩ | ⟨r', rfl⟩
  · trivial
  · exact headNotDigit_cons 10 ']' r' (by decide)
  · exact headNotDigit_cons 10 ':' _ (by decide)

theorem stopOk_head_ne_dot (rest : List Char) (h : stopOk rest) :
    rest.head? ≠ some '.' := by
  rcases h with rfl | ⟨r', rfl⟩ | ⟨r', rfl⟩ <;> simp

/-- Head-of-tail facts for the remainder after one printed group: either
more `:`-prefixed groups follow, or the stop shape. -/
theorem groupTail_props (gs : List Nat) (rest : List Char) (hstop : stopOk rest) :
    headNotDigit 10 (fmtGroupsGo false gs ++ rest) ∧
    headNotDigit 16 (fmtGroupsGo false gs ++ rest) ∧
    (fmtGroupsGo false gs ++ rest).head? ≠ some '.' := by
  cases gs with
  | nil =>
    simp only [fmtGroupsGo, List.nil_append]
    exact ⟨stopOk_headNotDigit10 rest hstop, stopOk_headNotDigit16 rest hstop,
      stopOk_head_ne_dot rest hstop⟩
  | cons g t =>
    have hshape : fmtGroupsGo false (g :: t) ++ rest =
        ':' :: (hexPrint g ++ fmtGroupsGo false t ++ rest) := by
      simp [fmtGroupsGo]
    rw [hshape]
    refine ⟨headNotDigit_cons 10 ':' _ (by decide),
      headNotDigit_cons 16 ':' _ (by decide), by simp⟩

/-- The attempted embedded-IPv4 read fails on a printed hex group followed by
group-tail or stop material. -/
theorem ipv4_attempt_none (g : Nat) (gs : List Nat) (rest : List Char)
    (hstop : stopOk rest) :
    read_ipv4_addr (hexPrint g ++ (fmtGroupsGo false gs ++ rest)) = none := by
  obtain ⟨h10, _, hdot⟩ := groupTail_props gs rest hstop
  exact read_ipv4_none_of_sep (hexPrint g) _ (hexPrint_digits g) h10 hdot

/-- The main printed-groups parsing lemma: `read_groups_go` on printed groups
followed by a stop shape reads back exactly those groups. -/
theorem read_groups_go_print (gs : List Nat) (hg : ∀ g ∈ gs, g ≤ 65535) :
    ∀ remaining i limit rest, gs.length ≤ remaining → stopOk rest →
      read_groups_go limit remaining i (fmtGroupsGo (i == 0) gs ++ rest) =
        (gs, false, rest) := by
  induction gs with
  | nil =>
    intro remaining i limit rest _ hstop
    simp only [fmtGroupsGo, List.nil_append]
    cases remaining with
    | zero => rfl
    | succ rem =>
      have hipv4 : read_separator ':' i read_ipv4_addr rest = none := by
        by_cases hi : i = 0
        · subst hi
          rw [read_separator_zero]
          have := read_ipv4_none_aux [] rest (by simp)
            (stopOk_headNotDigit10 rest hstop) (stopOk_head_ne_dot rest hstop)
          simpa using this
        · rcases hstop with rfl | ⟨r', rfl⟩ | ⟨r', rfl⟩
          · exact read_separator_nil ':' i hi _
          · exact read_separator_fail ':' i hi _ ']' r' (by decide)
          · rw [read_separator_pos ':' i hi _ (':' :: r')]
            have := read_ipv4_none_aux [] (':' :: r') (by simp)
              (headNotDigit_cons 10 ':' r' (by decide)) (by simp)
            simpa using this
      have hgroup : read_separator ':' i
          (read_number 16 (some 4) true 65535) rest = none := by
        by_cases hi : i = 0
        · subst hi
          rw [read_separator_zero]
          exact read_number_none_of_headNotDigit 16 _ _ _ rest
            (stopOk_headNotDigit16 rest hstop)
        · rcases hstop with rfl | ⟨r', rfl⟩ | ⟨r', rfl⟩
          · exact read_separator_nil ':' i hi _
          · exact read_separator_fail ':' i hi _ ']' r' (by decide)
          · rw [read_separator_pos ':' i hi _ (':' :: r')]
            exact read_number_none_of_headNotDigit 16 _ _ _ (':' :: r')
              (headNotDigit_cons 16 ':' r' (by decide))
      simp only [read_groups_go]
      rw [hgroup]
      split
      · rename_i heq
        rw [hipv4] at heq
        simp at heq
      · rfl
  | cons g gs' ih =>
    intro remaining i limit rest hlen hstop
    cases remaining with
    | zero => simp at hlen
    | succ rem =>
      have hg0 : g ≤ 65535 := hg g (by simp)
      have hg' : ∀ x ∈ gs', x ≤ 65535 := fun x hx => hg x (List.mem_cons_of_mem g hx)
      obtain ⟨h10t, h16t, hdott⟩ := groupTail_props gs' rest hstop
      have hipv4 : read_separator ':' i read_ipv4_addr
          (fmtGroupsGo (i == 0) (g :: gs') ++ rest) = none := by
        by_cases hi : i = 0
        · subst hi
          simp only [fmtGroupsGo, beq_self_eq_true, if_pos]
          rw [read_separator_zero]
          simp only [List.nil_append, List.append_assoc]
          exact ipv4_attempt_none g gs' rest hstop
        · have hbeq : (i == 0) = false := by simp [hi]
          rw [hbeq]
          have hshape : fmtGroupsGo false (g :: gs') ++ rest =
              ':' :: (hexPrint g ++ (fmtGroupsGo false gs' ++ rest)) := by
            simp [fmtGroupsGo]
          rw [hshape, read_separator_pos ':' i hi _ _]
          exact ipv4_attempt_none g gs' rest hstop
      have hgroup : read_separator ':' i (read_number 16 (some 4) true 65535)
          (fmtGroupsGo (i == 0) (g :: gs') ++ rest) =
            some (g, fmtGroupsGo false gs' ++ rest) := by
        by_cases hi : i = 0
        · subst hi
          simp only [fmtGroupsGo, beq_self_eq_true, if_pos]
          rw [read_separator_zero]
          simp only [List.nil_append, List.append_assoc]
          exact read_number_group_print g hg0 _ h16t
        · have hbeq : (i == 0) = false := by simp [hi]
          rw [hbeq]
          have hshape : fmtGroupsGo false (g :: gs') ++ rest =
              ':' :: (hexPrint g ++ (fmtGroupsGo false gs' ++ rest)) := by
            simp [fmtGroupsGo]
          rw [hshape, read_separator_pos ':' i hi _ _]
          exact read_number_group_print g hg0 _ h16t
      simp only [read_groups_go]
      rw [hgroup]
      split
      · rename_i heq
        rw [hipv4] at heq
        simp at heq
      · have hrec := ih hg' rem (i + 1) limit rest (by simpa using hlen) hstop
        have hbeq1 : ((i + 1) == 0) = false := by simp
        rw [hbeq1] at hrec
        show (g :: (read_groups_go limit rem (i + 1) (fmtGroupsGo false gs' ++ rest)).1,
          (read_groups_go limit rem (i + 1) (fmtGroupsGo false gs' ++ rest)).2.1,
          (read_groups_go limit rem (i + 1) (fmtGroupsGo false gs' ++ rest)).2.2) =
          (g :: gs', false, rest)
        rw [hrec]

/-- Invariant of the zero-span fold over the processed prefix. -/
def zeroRunInv (pre : List Nat) (st : (Nat × Nat) × (Nat × Nat) × Nat) : Prop :=
  st.2.2 = pre.length ∧
  st.1.1 + st.1.2 ≤ pre.length ∧
  (pre.drop st.1.1).take st.1.2 = List.replicate st.1.2 0 ∧
  (st.2.1.2 = 0 ∨ (st.2.1.1 + st.2.1.2 = pre.length ∧
    pre.drop st.2.1.1 = List.replicate st.2.1.2 0))

theorem zeroRun_fold_inv (segs : List Nat) :
    ∀ pre st, zeroRunInv pre st →
      zeroRunInv (pre ++ segs) (segs.foldl zeroRunStep st) := by
  induction segs with
  | nil =>
    intro pre st h
    simpa using h
  | cons seg rest ih =>
    intro pre st h
    obtain ⟨hi, hlong, hlongrun, hcur⟩ := h
    have hmain : zeroRunInv (pre ++ [seg]) (zeroRunStep st seg) := by
      rcases st with ⟨⟨ls, ll⟩, ⟨cs, cl⟩, i⟩
      simp only at hi hlong hlongrun hcur
      subst hi
      by_cases hseg : seg = 0
      · subst hseg
        have hcs' : (if cl = 0 then pre.length else cs) + (cl + 1) =
            (pre ++ [(0 : Nat)]).length ∧
            (pre ++ [(0 : Nat)]).drop (if cl = 0 then pre.length else cs) =
              List.replicate (cl + 1) 0 := by
          by_cases hcl : cl = 0
          · subst hcl
            rw [if_pos rfl]
            constructor
            · simp
            · rw [List.drop_append_of_le_length (le_refl pre.length)]
              simp
          · rw [if_neg hcl]
            rcases hcur with hcur | ⟨hcur1, hcur2⟩
            · exact absurd hcur hcl
            · constructor
              · simp
                omega
              · rw [List.drop_append_of_le_length (by omega)]
                rw [hcur2, ← List.replicate_succ' ]
        simp only [zeroRunStep]
        rw [if_pos trivial]
        by_cases hgt : cl + 1 > ll
        · rw [if_pos hgt]
          refine ⟨by simp, ?_, ?_, ?_⟩
          · simp only
            omega
          · simp only
            rw [hcs'.2]
            simp
          · right
            exact ⟨hcs'.1, hcs'.2⟩
        · rw [if_neg hgt]
          refine ⟨by simp, ?_, ?_, ?_⟩
          · simp only
            simp
            omega
          · simp only
            rw [List.drop_append_of_le_length (by omega),
              List.take_append_of_le_length (by simp; omega)]
            exact hlongrun
          · right
            exact ⟨hcs'.1, hcs'.2⟩
      · simp only [zeroRunStep]
        rw [if_neg hseg]
        refine ⟨by simp, ?_, ?_, Or.inl rfl⟩
        · simp only
          simp
          omega
        · simp only
          rw [List.drop_append_of_le_length (by omega),
            List.take_append_of_le_length (by simp; omega)]
          exact hlongrun
    have := ih (pre ++ [seg]) (zeroRunStep st seg) hmain
    simpa using this

theorem longestZeroRun_spec (segs : List Nat) :
    (longestZeroRun segs).1 + (longestZeroRun segs).2 ≤ segs.length ∧
    (segs.drop (longestZeroRun segs).1).take (longestZeroRun segs).2 =
      List.replicate (longestZeroRun segs).2 0 := by
  have hinit : zeroRunInv [] ((0, 0), (0, 0), 0) := by
    refine ⟨rfl, by simp, by simp, Or.inl rfl⟩
  have := zeroRun_fold_inv segs [] ((0, 0), (0, 0), 0) hinit
  simp only [List.nil_append] at this
  exact ⟨this.2.1, this.2.2.1⟩

theorem read_groups_go_wf (limit : Nat) :
    ∀ remaining i input, i + remaining = limit →
      (read_groups_go limit remaining i input).1.length ≤ remaining ∧
      ∀ g ∈ (read_groups_go limit remaining i input).1, g ≤ 65535 := by
  intro remaining
  induction remaining with
  | zero =>
    intro i input _
    simp [read_groups_go]
  | succ rem ih =>
    intro i input hinv
    simp only [read_groups_go]
    split
    · rename_i v4 rest heq
      split at heq
      · rename_i hguard
        constructor
        · simp only [List.length_cons, List.length_nil]
          omega
        · rcases hsep : read_separator ':' i read_ipv4_addr input with _ | ⟨v4', rest'⟩ <;>
            rw [hsep] at heq
          · cases heq
          · injection heq with hpair
            injection hpair with hv hr
            subst hv
            have hwf : v4'.o1 ≤ 255 ∧ v4'.o2 ≤ 255 ∧ v4'.o3 ≤ 255 ∧ v4'.o4 ≤ 255 := by
              by_cases hi : i = 0
              · subst hi
                rw [read_separator_zero] at hsep
                exact (read_ipv4_sound _ _ _ hsep).2.1
              · simp only [read_separator, if_neg hi] at hsep
                rcases hgc : read_given_char ':' input with _ | ⟨u, r⟩ <;>
                  rw [hgc] at hsep
                · cases hsep
                · exact (read_ipv4_sound _ _ _ hsep).2.1
            intro g hgmem
            simp only [List.mem_cons, List.not_mem_nil, or_false] at hgmem
            obtain ⟨hw1, hw2, hw3, hw4⟩ := hwf
            rcases hgmem with rfl | rfl <;> omega
      · cases heq
    · split
      · rename_i g rest heq
        have hrec := ih (i + 1) rest (by omega)
        constructor
        · simp only [List.length_cons]
          omega
        · intro x hx
          simp only [List.mem_cons] at hx
          rcases hx with rfl | hx
          · by_cases hi : i = 0
            · subst hi
              rw [read_separator_zero] at heq
              obtain ⟨cs, _, _, _, _, _, _, _, hcap⟩ :=
                read_number_sound _ _ _ _ _ _ _ heq
              exact hcap
            · simp only [read_separator, if_neg hi] at heq
              rcases hgc : read_given_char ':' input with _ | ⟨u, r⟩ <;>
                rw [hgc] at heq
              · cases heq
              · obtain ⟨cs, _, _, _, _, _, _, _, hcap⟩ :=
                  read_number_sound _ _ _ _ _ _ _ heq
                exact hcap
          · exact hrec.2 x hx
      · simp

theorem read_groups_wf (limit : Nat) (input : List Char) :
    (read_groups limit input).1.length ≤ limit ∧
    ∀ g ∈ (read_groups limit input).1, g ≤ 65535 :=
  read_groups_go_wf limit limit 0 input (by omega)

theorem to_ipv4_mapped_sound (ip : Ipv6) (v4 : Ipv4)
    (h : to_ipv4_mapped ip = some v4) :
    ∃ g6 g7, ip.segs = [0, 0, 0, 0, 0, 65535, g6, g7] ∧
      v4 = ⟨g6 / 256, g6 % 256, g7 / 256, g7 % 256⟩ := by
  unfold to_ipv4_mapped at h
  split at h
  · rename_i g6 g7 hsegs
    injection h with h
    exact ⟨g6, g7, hsegs, h.symm⟩
  · cases h

theorem read_ipv4_display_complete (v : Ipv4)
    (h : v.o1 ≤ 255 ∧ v.o2 ≤ 255 ∧ v.o3 ≤ 255 ∧ v.o4 ≤ 255)
    (rest : List Char) (hrest : headNotDigit 10 rest) :
    read_ipv4_addr (ipv4Display v ++ rest) = some (v, rest) := by
  obtain ⟨h1, h2, h3, h4⟩ := h
  have hr := read_ipv4_complete (decPrint v.o1) (decPrint v.o2) (decPrint v.o3)
    (decPrint v.o4) v.o1 v.o2 v.o3 v.o4 (octetStr_decPrint _ h1)
    (octetStr_decPrint _ h2) (octetStr_decPrint _ h3) (octetStr_decPrint _ h4)
    rest hrest
  have hshape : ipv4Display v ++ rest =
      decPrint v.o1 ++ '.' :: (decPrint v.o2 ++ '.' ::
        (decPrint v.o3 ++ '.' :: (decPrint v.o4 ++ rest))) := by
    simp [ipv4Display]
  rw [hshape, hr]

theorem read_groups_go_step_ipv4 (limit rem i : Nat) (input tail : List Char)
    (v4 : Ipv4)
    (h : (if i + 1 < limit then read_separator ':' i read_ipv4_addr input
          else none) = some (v4, tail)) :
    read_groups_go limit (rem + 1) i input =
      ([v4.o1 * 256 + v4.o2, v4.o3 * 256 + v4.o4], true, tail) := by
  simp only [read_groups_go]
  rw [h]

theorem read_groups_go_step_group (limit rem i : Nat) (input tail : List Char)
    (g : Nat)
    (hno : (if i + 1 < limit then read_separator ':' i read_ipv4_addr input
            else none) = none)
    (hgroup : read_separator ':' i (read_number 16 (some 4) true 65535) input =
      some (g, tail)) :
    read_groups_go limit (rem + 1) i input =
      (g :: (read_groups_go limit rem (i + 1) tail).1,
       (read_groups_go limit rem (i + 1) tail).2.1,
       (read_groups_go limit rem (i + 1) tail).2.2) := by
  simp only [read_groups_go]
  rw [hno, hgroup]

theorem read_ipv6_wf (input : List Char) (ip : Ipv6) (rest : List Char)
    (h : read_ipv6_addr input = some (ip, rest)) :
    ip.segs.length = 8 ∧ ∀ g ∈ ip.segs, g ≤ 65535 := by
  simp only [read_ipv6_addr] at h
  obtain ⟨hhl, hhwf⟩ := read_groups_wf 8 input
  split at h
  · rename_i hlen8
    injection h with hpair
    injection hpair with hip hrest
    subst hip
    exact ⟨hlen8, hhwf⟩
  · rename_i hlen8
    split at h
    · cases h
    · split at h
      · cases h
      · rename_i u1 r2 hgc1
        split at h
        · cases h
        · rename_i u2 r3 hgc2
          obtain ⟨htl, htwf⟩ :=
            read_groups_wf (8 - ((read_groups 8 input).1.length + 1)) r3
          injection h with hpair
          injection hpair with hip hrest
          subst hip
          constructor
          · simp only [List.length_append, List.length_replicate]
            omega
          · intro g hg
            simp only [List.mem_append, List.mem_replicate] at hg
            rcases hg with (hg | hg) | hg
            · exact hhwf g hg
            · omega
            · exact htwf g hg

theorem read_groups_run (limit : Nat) (input : List Char) :
    read_groups limit input = read_groups_go limit limit 0 input := rfl

theorem read_ipv6_addr_of_tail (input r3 tr : List Char) (gs ts : List Nat)
    (b : Bool)
    (hh : read_groups 8 input = (gs, false, ':' :: ':' :: r3))
    (hlen : gs.length ≠ 8)
    (ht : read_groups (8 - (gs.length + 1)) r3 = (ts, b, tr)) :
    read_ipv6_addr input =
      some (⟨gs ++ List.replicate (8 - gs.length - ts.length) 0 ++ ts⟩, tr) := by
  simp only [read_ipv6_addr, hh]
  rw [if_neg hlen]
  simp only [Bool.false_eq_true, if_false, read_given_char_cons]
  rw [ht]

theorem read_ipv6_display (ip : Ipv6) (hlen : ip.segs.length = 8)
    (hwf : ∀ g ∈ ip.segs, g ≤ 65535) (rest : List Char)
    (hstop : rest = [] ∨ ∃ r', rest = ']' :: r') :
    read_ipv6_addr (ipv6Display ip ++ rest) = some (ip, rest) := by
  have hstopOk : stopOk rest := by
    rcases hstop with rfl | ⟨r', rfl⟩
    · exact Or.inl rfl
    · exact Or.inr (Or.inl ⟨r', rfl⟩)
  rcases hmap : to_ipv4_mapped ip with _ | v4
  · -- not IPv4-mapped: zero-run compression or the flat eight groups
    simp only [ipv6Display, hmap]
    by_cases hz : (longestZeroRun ip.segs).2 > 1
    · rw [if_pos hz]
      obtain ⟨hrun1, hrun2⟩ := longestZeroRun_spec ip.segs
      set zs := (longestZeroRun ip.segs).1 with hzs
      set zl := (longestZeroRun ip.segs).2 with hzl
      have hzs6 : zs ≤ 6 := by omega
      have hheadlen : (ip.segs.take zs).length = zs := by
        simp only [List.length_take]
        omega
      have htaillen : (ip.segs.drop (zs + zl)).length = 8 - zs - zl := by
        simp only [List.length_drop]
        omega
      have hdecomp : ip.segs =
          ip.segs.take zs ++ List.replicate zl 0 ++ ip.segs.drop (zs + zl) := by
        conv_lhs => rw [← List.take_append_drop zs ip.segs]
        rw [List.append_assoc]
        congr 1
        conv_lhs => rw [← List.take_append_drop zl (ip.segs.drop zs)]
        rw [hrun2, List.drop_drop]
      have hshape : (fmtGroups (ip.segs.take zs) ++
            ':' :: ':' :: fmtGroups (ip.segs.drop (zs + zl))) ++ rest =
          fmtGroupsGo true (ip.segs.take zs) ++
            (':' :: ':' :: (fmtGroupsGo true (ip.segs.drop (zs + zl)) ++ rest)) := by
        simp [fmtGroups]
      rw [hshape]
      have hhead := read_groups_go_print (ip.segs.take zs)
        (fun g hg => hwf g (List.mem_of_mem_take hg)) 8 0 8
        (':' :: ':' :: (fmtGroupsGo true (ip.segs.drop (zs + zl)) ++ rest))
        (by omega) (Or.inr (Or.inr ⟨_, rfl⟩))
      have hheadEq : read_groups 8 (fmtGroupsGo true (ip.segs.take zs) ++
          (':' :: ':' :: (fmtGroupsGo true (ip.segs.drop (zs + zl)) ++ rest))) =
          (ip.segs.take zs, false,
            ':' :: ':' :: (fmtGroupsGo true (ip.segs.drop (zs + zl)) ++ rest)) := by
        rw [read_groups_run]
        simpa using hhead
      simp only [read_ipv6_addr, hheadEq]
      rw [if_neg (by rw [hheadlen]; omega)]
      simp only [Bool.false_eq_true, if_false, read_given_char_cons]
      have htail := read_groups_go_print (ip.segs.drop (zs + zl))
        (fun g hg => hwf g (List.mem_of_mem_drop hg)) (8 - (zs + 1)) 0 (8 - (zs + 1))
        rest (by omega) hstopOk
      have htailEq : read_groups (8 - ((ip.segs.take zs).length + 1))
          (fmtGroupsGo true (ip.segs.drop (zs + zl)) ++ rest) =
          (ip.segs.drop (zs + zl), false, rest) := by
        rw [hheadlen, read_groups_run]
        simpa using htail
      rw [htailEq]
      simp only [htaillen, hheadlen]
      have hmid : 8 - zs - (8 - zs - zl) = zl := by omega
      rw [hmid, ← hdecomp]
    · rw [if_neg hz]
      have hflat := read_groups_go_print ip.segs hwf 8 0 8 rest
        (by omega) hstopOk
      have hEq : read_groups 8 (fmtGroupsGo true ip.segs ++ rest) =
          (ip.segs, false, rest) := by
        rw [read_groups_run]
        simpa using hflat
      simp only [fmtGroups, read_ipv6_addr, hEq]
      rw [if_pos (by simpa using hlen)]
  · -- the IPv4-mapped special case `::ffff:a.b.c.d`
    obtain ⟨g6, g7, hsegs, hv4⟩ := to_ipv4_mapped_sound ip v4 hmap
    have hg6 : g6 ≤ 65535 := hwf g6 (by rw [hsegs]; simp)
    have hg7 : g7 ≤ 65535 := hwf g7 (by rw [hsegs]; simp)
    have hv4wf : v4.o1 ≤ 255 ∧ v4.o2 ≤ 255 ∧ v4.o3 ≤ 255 ∧ v4.o4 ≤ 255 := by
      subst hv4
      refine ⟨?_, ?_, ?_, ?_⟩
      · show g6 / 256 ≤ 255
        omega
      · show g6 % 256 ≤ 255
        omega
      · show g7 / 256 ≤ 255
        omega
      · show g7 % 256 ≤ 255
        omega
    simp only [ipv6Display, hmap]
    have hffff : hexPrint 65535 = ['f', 'f', 'f', 'f'] := by decide
    have step2 : read_groups_go 7 6 1 (':' :: (ipv4Display v4 ++ rest)) =
        ([g6, g7], true, rest) := by
      have hrsep : read_separator ':' 1 read_ipv4_addr
          (':' :: (ipv4Display v4 ++ rest)) = some (v4, rest) := by
        rw [read_separator_pos ':' 1 (by omega)]
        exact read_ipv4_display_complete v4 hv4wf rest
          (stopOk_headNotDigit10 rest hstopOk)
      refine Eq.trans (read_groups_go_step_ipv4 7 5 1
        (':' :: (ipv4Display v4 ++ rest)) rest v4 ?_) ?_
      · rw [if_pos (by omega : 1 + 1 < 7)]
        exact hrsep
      · subst hv4
        show ([g6 / 256 * 256 + g6 % 256, g7 / 256 * 256 + g7 % 256], true, rest) =
          ([g6, g7], true, rest)
        have e6 : g6 / 256 * 256 + g6 % 256 = g6 := by omega
        have e7 : g7 / 256 * 256 + g7 % 256 = g7 := by omega
        rw [e6, e7]
    have step1 : read_groups_go 7 7 0
        ('f' :: 'f' :: 'f' :: 'f' :: ':' :: (ipv4Display v4 ++ rest)) =
        ([65535, g6, g7], true, rest) := by
      have hipv4no : read_ipv4_addr
          ('f' :: 'f' :: 'f' :: 'f' :: ':' :: (ipv4Display v4 ++ rest)) = none := by
        have hr := read_ipv4_none_of_sep (hexPrint 65535)
          (':' :: (ipv4Display v4 ++ rest)) (hexPrint_digits 65535)
          (headNotDigit_cons 10 ':' _ (by decide)) (by simp)
        rw [hffff] at hr
        simpa using hr
      have hgrp : read_number 16 (some 4) true 65535
          ('f' :: 'f' :: 'f' :: 'f' :: ':' :: (ipv4Display v4 ++ rest)) =
          some (65535, ':' :: (ipv4Display v4 ++ rest)) := by
        have hr := read_number_group_print 65535 le_rfl
          (':' :: (ipv4Display v4 ++ rest))
          (headNotDigit_cons 16 ':' _ (by decide))
        rw [hffff] at hr
        simpa using hr
      refine Eq.trans (read_groups_go_step_group 7 6 0
        ('f' :: 'f' :: 'f' :: 'f' :: ':' :: (ipv4Display v4 ++ rest))
        (':' :: (ipv4Display v4 ++ rest)) 65535 ?_ ?_) ?_
      · rw [if_pos (by omega : 0 + 1 < 7), read_separator_zero]
        exact hipv4no
      · rw [read_separator_zero]
        exact hgrp
      · rw [step2]
    have hheadEq : read_groups 8
        (':' :: ':' :: ('f' :: 'f' :: 'f' :: 'f' :: ':' :: (ipv4Display v4 ++ rest))) =
        ([], false,
          ':' :: ':' :: ('f' :: 'f' :: 'f' :: 'f' :: ':' :: (ipv4Display v4 ++ rest))) := by
      rw [read_groups_run]
      have hh := read_groups_go_print [] (by simp) 8 0 8
        (':' :: ':' :: ('f' :: 'f' :: 'f' :: 'f' :: ':' :: (ipv4Display v4 ++ rest)))
        (by simp) (Or.inr (Or.inr ⟨_, rfl⟩))
      simpa using hh
    have htailEq : read_groups (8 - (([] : List Nat).length + 1))
        ('f' :: 'f' :: 'f' :: 'f' :: ':' :: (ipv4Display v4 ++ rest)) =
        ([65535, g6, g7], true, rest) := by
      rw [read_groups_run]
      exact step1
    have happ := read_ipv6_addr_of_tail
      (':' :: ':' :: ('f' :: 'f' :: 'f' :: 'f' :: ':' :: (ipv4Display v4 ++ rest)))
      ('f' :: 'f' :: 'f' :: 'f' :: ':' :: (ipv4Display v4 ++ rest)) rest
      [] [65535, g6, g7] true hheadEq (by simp) htailEq
    simp only [List.cons_append]
    rw [happ]
    have hsegsEq : (([] : List Nat) ++
        List.replicate (8 - ([] : List Nat).length - [65535, g6, g7].length) 0 ++
        [65535, g6, g7]) = ip.segs := by
      rw [hsegs]
      rfl
    rw [hsegsEq]

theorem isDigit_of_isRadixDigit10 (c : Char) (h : isRadixDigit 10 c = true) :
    c.isDigit = true := by
  obtain ⟨h1, h2⟩ := isRadixDigit10_charac c h
  simp only [Char.isDigit, ge_iff_le, Bool.and_eq_true, decide_eq_true_eq]
  have hv : c.val.toBitVec.toNat = c.toNat := rfl
  constructor
  · rw [UInt32.le_def, BitVec.le_def, hv,
      show ((48 : UInt32)).toBitVec.toNat = 48 from rfl]
    omega
  · rw [UInt32.le_def, BitVec.le_def, hv,
      show ((57 : UInt32)).toBitVec.toNat = 57 from rfl]
    omega

theorem isRadixDigit10_ne (c : Char) (h : isRadixDigit 10 c = true) :
    c ≠ '+' ∧ c ≠ ':' ∧ c ≠ '.' ∧ c ≠ '[' := by
  obtain ⟨h1, h2⟩ := isRadixDigit10_charac c h
  refine ⟨?_, ?_, ?_, ?_⟩ <;> intro hx <;> subst hx <;> revert h1 h2 <;> decide

theorem digitValC10_eq_sub (c : Char) (h : isRadixDigit 10 c = true) :
    digitValC 10 c = c.toNat - 48 := by
  simp only [isRadixDigit, Option.isSome_iff_exists] at h
  obtain ⟨v, hv⟩ := h
  obtain ⟨h1, h2, h3⟩ := toDigit10_charac c v hv
  simp [digitValC, hv, h3]

theorem hostnameChar_ne (c : Char) (h : isHostnameChar c = true) :
    c ≠ ':' ∧ c ≠ '[' := by
  simp only [isHostnameChar, isAsciiAlphanumeric, Bool.or_eq_true,
    Bool.and_eq_true, decide_eq_true_eq, beq_iff_eq] at h
  have hn : c.toNat ≠ 58 ∧ c.toNat ≠ 91 := by
    rcases h with (⟨h1, h2⟩ | ⟨h1, h2⟩ | ⟨h1, h2⟩) | rfl | rfl
    · constructor <;> omega
    · constructor <;> omega
    · constructor <;> omega
    · constructor <;> decide
    · constructor <;> decide
  constructor
  · intro hx
    subst hx
    exact hn.1 rfl
  · intro hx
    subst hx
    exact hn.2 rfl

theorem valid_hostname_facts (h : List Char) (hv : is_valid_hostname h = true) :
    h ≠ [] ∧ ∀ c ∈ h, isHostnameChar c = true := by
  simp only [is_valid_hostname] at hv
  split at hv
  · cases hv
  split at hv
  · cases hv
  rename_i hA hB
  constructor
  · intro hnil
    subst hnil
    simp at hA
  · intro c hc
    have hball : h.all isHostnameChar = true := by
      by_cases hx : h.all isHostnameChar
      · exact hx
      · exact absurd (by simp [hx]) hB
    exact List.all_eq_true.mp hball c hc

theorem decPrint_no_colon (p : Nat) : ':' ∉ decPrint p := by
  intro hc
  exact absurd (decPrint_digits p ':' hc) (by decide)

theorem ipv4Display_no_colon (v : Ipv4) : ':' ∉ ipv4Display v := by
  intro hc
  simp only [ipv4Display, List.mem_append, List.mem_cons] at hc
  rcases hc with ((h | h | h) | h | h) | h | h <;>
    first
      | exact decPrint_no_colon _ h
      | exact absurd h (by decide)

theorem hostname_no_colon (h : List Char) (hv : is_valid_hostname h = true) :
    ':' ∉ h := by
  intro hc
  exact (hostnameChar_ne ':' ((valid_hostname_facts h hv).2 ':' hc)).1 rfl

theorem read_separator_consume {α : Type} (i : Nat)
    (f : List Char → Option (α × List Char)) (input tail : List Char) (v : α)
    (h : read_separator ':' i f input = some (v, tail)) :
    (i = 0 ∧ f input = some (v, tail)) ∨
    (i ≠ 0 ∧ ∃ r, input = ':' :: r ∧ f r = some (v, tail)) := by
  by_cases hi : i = 0
  · subst hi
    rw [read_separator_zero] at h
    exact Or.inl ⟨rfl, h⟩
  · right
    refine ⟨hi, ?_⟩
    simp only [read_separator, if_neg hi] at h
    split at h
    · cases h
    · rename_i u r hgc
      exact ⟨r, read_given_char_sound hgc, h⟩

theorem hex_number_count (input : List Char) (g : Nat) (tail : List Char)
    (h : read_number 16 (some 4) true 65535 input = some (g, tail)) :
    (∃ pre, input = pre ++ tail) ∧ input.count ':' = tail.count ':' := by
  obtain ⟨cs, hsplit, hne, hdig, -, -, -, -, -⟩ :=
    read_number_sound 16 (some 4) true 65535 input g tail h
  refine ⟨⟨cs, hsplit⟩, ?_⟩
  have hnc : ':' ∉ cs := by
    intro hc
    exact (isRadixDigit16_ne ':' (hdig ':' hc)).2.1 rfl
  rw [hsplit, List.count_append, List.count_eq_zero.mpr hnc, Nat.zero_add]

theorem read_groups_go_colons (limit : Nat) : ∀ (rem i : Nat)
    (input : List Char) (gs : List Nat) (b : Bool) (rest : List Char),
    read_groups_go limit rem i input = (gs, b, rest) →
    (∃ pre, input = pre ++ rest) ∧
    gs.length + rest.count ':' ≤ input.count ':' + (if i = 0 then 2 else 1)
  | 0, i, input, gs, b, rest => by
    intro h
    simp only [read_groups_go] at h
    injection h with h1 h2
    injection h2 with h2 h3
    subst h1
    subst h3
    refine ⟨⟨[], rfl⟩, ?_⟩
    simp only [List.length_nil]
    split <;> omega
  | rem + 1, i, input, gs, b, rest => by
    intro h
    simp only [read_groups_go] at h
    split at h
    · rename_i v4 tail hsep
      split at hsep
      · rename_i hlim
        injection h with h1 h2
        injection h2 with h2 h3
        subst h1
        subst h3
        rcases read_separator_consume i read_ipv4_addr input tail v4 hsep with
          ⟨hi0, hf⟩ | ⟨hi0, r, hr, hf⟩
        · obtain ⟨hin, -, -⟩ := read_ipv4_sound input v4 tail hf
          subst hi0
          refine ⟨⟨ipv4Display v4, hin⟩, ?_⟩
          rw [hin, List.count_append, if_pos rfl]
          simp only [List.length_cons, List.length_nil]
          omega
        · obtain ⟨hin, -, -⟩ := read_ipv4_sound r v4 tail hf
          refine ⟨⟨':' :: ipv4Display v4, ?_⟩, ?_⟩
          · rw [hr, hin]
            simp
          · rw [hr, hin, List.count_cons_self, List.count_append, if_neg hi0]
            simp only [List.length_cons, List.length_nil]
            omega
      · cases hsep
    · rename_i hsep0
      split at h
      · rename_i g tail hgrp
        rcases hrec : read_groups_go limit rem (i + 1) tail with ⟨gs2, b2, rest2⟩
        rw [hrec] at h
        injection h with h1 h2
        injection h2 with h2 h3
        subst h1
        subst h3
        obtain ⟨⟨pre2, hpre2⟩, hcnt2⟩ :=
          read_groups_go_colons limit rem (i + 1) tail gs2 b2 rest2 hrec
        rw [if_neg (by omega : ¬i + 1 = 0)] at hcnt2
        rcases read_separator_consume i (read_number 16 (some 4) true 65535)
            input tail g hgrp with ⟨hi0, hf⟩ | ⟨hi0, r, hr, hf⟩
        · obtain ⟨⟨cs, hcs⟩, hcc⟩ := hex_number_count input g tail hf
          subst hi0
          refine ⟨⟨cs ++ pre2, by rw [hcs, hpre2, List.append_assoc]⟩, ?_⟩
          rw [if_pos rfl, hcc]
          simp only [List.length_cons]
          omega
        · obtain ⟨⟨cs, hcs⟩, hcc⟩ := hex_number_count r g tail hf
          refine ⟨⟨':' :: (cs ++ pre2), ?_⟩, ?_⟩
          · rw [hr, hcs, hpre2]
            simp
          · rw [if_neg hi0, hr, List.count_cons_self, hcc]
            simp only [List.length_cons]
            omega
      · rename_i hgrp0
        injection h with h1 h2
        injection h2 with h2 h3
        subst h1
        subst h3
        refine ⟨⟨[], rfl⟩, ?_⟩
        simp only [List.length_nil]
        split <;> omega

theorem read_ipv6_colons (input : List Char) (ip : Ipv6) (rest : List Char)
    (h : read_ipv6_addr input = some (ip, rest)) : 2 ≤ input.count ':' := by
  simp only [read_ipv6_addr] at h
  rcases hrg : read_groups 8 input with ⟨gs, b, r⟩
  rw [hrg] at h
  obtain ⟨⟨pre, hpre⟩, hcnt⟩ :=
    read_groups_go_colons 8 8 0 input gs b r (by rw [← read_groups_run, hrg])
  rw [if_pos rfl] at hcnt
  split at h
  · rename_i hlen
    simp only at hlen
    omega
  · split at h
    · cases h
    · split at h
      · cases h
      · rename_i u1 r2 hgc1
        split at h
        · cases h
        · rename_i u2 r3 hgc2
          have hr2 : r = ':' :: r2 := read_given_char_sound hgc1
          have hr3 : r2 = ':' :: r3 := read_given_char_sound hgc2
          have : 2 ≤ r.count ':' := by
            rw [hr2, hr3, List.count_cons_self, List.count_cons_self]
            omega
          rw [hpre, List.count_append]
          omega

/-- Well-formedness of a parsed IP: octet and group bounds from the parser. -/
def ipWf : IpAddr → Prop
  | IpAddr.v4 v => v.o1 ≤ 255 ∧ v.o2 ≤ 255 ∧ v.o3 ≤ 255 ∧ v.o4 ≤ 255
  | IpAddr.v6 w => w.segs.length = 8 ∧ ∀ g ∈ w.segs, g ≤ 65535

/-- The host that re-parsing the display yields: a hostname that reads in
full as an IPv4 literal comes back as that IP address; all else is kept. -/
def reclassifyHost : Host → Host
  | Host.hostname n =>
    match parse_full read_ipv4_addr n with
    | some v => Host.ip (IpAddr.v4 v)
    | none => Host.hostname n
  | Host.ip addr => Host.ip addr

theorem parse_full_sound {α : Type} (p : List Char → Option (α × List Char))
    (s : List Char) (v : α) (h : parse_full p s = some v) :
    p s = some (v, []) := by
  simp only [parse_full] at h
  split at h
  · rename_i w hw
    injection h with h
    subst h
    exact hw
  · cases h

theorem read_port_print (p : Nat) (hp : p ≤ 65535) :
    read_port (':' :: decPrint p) = some (p, []) := by
  simp only [read_port, read_given_char_cons]
  have hr := read_number_port_print p hp [] trivial
  simpa using hr

theorem read_port_sound (input : List Char) (p : Nat) (rest : List Char)
    (h : read_port input = some (p, rest)) : p ≤ 65535 := by
  simp only [read_port] at h
  split at h
  · cases h
  · rename_i u r hgc
    obtain ⟨-, -, -, -, -, -, -, -, hcap⟩ :=
      read_number_sound 10 none true 65535 r p rest h
    exact hcap

theorem read_port_fail (input : List Char) (h : input.head? ≠ some ':') :
    read_port input = none := by
  cases input with
  | nil => rfl
  | cons c cs =>
    simp only [List.head?_cons, ne_eq] at h
    have hc : c ≠ ':' := fun hx => h (by rw [hx])
    simp [read_port, read_given_char, hc]

theorem parse_u16_decPrint (p : Nat) (hp : p ≤ 65535) :
    parse_u16 (decPrint p) = some p := by
  obtain ⟨c, cs, hcons⟩ := List.exists_cons_of_ne_nil (decPrint_ne_nil p)
  have hcdig : isRadixDigit 10 c = true :=
    decPrint_digits p c (by rw [hcons]; simp)
  have hplus : c ≠ '+' := (isRadixDigit10_ne c hcdig).1
  have hdigits : (match decPrint p with
      | '+' :: rest => rest
      | other => other) = decPrint p := by
    rw [hcons]
    split
    · rename_i heq
      injection heq with h1 h2
      exact absurd h1 hplus
    · rfl
  simp only [parse_u16, hdigits]
  rw [if_neg (by simp [hcons]), if_pos, if_pos]
  · congr 1
    have hmap : (decPrint p).map (fun c => c.toNat - 48) =
        (decPrint p).map (digitValC 10) := by
      refine List.map_congr_left ?_
      intro x hx
      rw [digitValC10_eq_sub x (decPrint_digits p x hx)]
    rw [hmap, digitsVal_decPrint]
  · rw [show (fun c => c.toNat - 48) = fun c : Char => c.toNat - 48 from rfl]
    have hmap : (decPrint p).map (fun c => c.toNat - 48) =
        (decPrint p).map (digitValC 10) := by
      refine List.map_congr_left ?_
      intro x hx
      rw [digitValC10_eq_sub x (decPrint_digits p x hx)]
    rw [hmap, digitsVal_decPrint]
    exact hp
  · rw [List.all_eq_true]
    intro x hx
    exact isDigit_of_isRadixDigit10 x (decPrint_digits p x hx)

theorem parse_u16_sound (s : List Char) (p : Nat) (h : parse_u16 s = some p) :
    p ≤ 65535 := by
  simp only [parse_u16] at h
  split at h
  · cases h
  · split at h
    · split at h
      · rename_i hcap
        injection h with h
        subst h
        exact hcap
      · cases h
    · cases h

theorem read_ipv4_head_fail (c : Char) (hc : isRadixDigit 10 c = false)
    (r : List Char) : read_ipv4_addr (c :: r) = none := by
  have hn := read_number_none_of_headNotDigit 10 (some 3) false 255 (c :: r)
    (headNotDigit_cons 10 c r hc)
  simp [read_ipv4_addr, hn]

theorem socket_v4_display (v : Ipv4)
    (hwf : v.o1 ≤ 255 ∧ v.o2 ≤ 255 ∧ v.o3 ≤ 255 ∧ v.o4 ≤ 255)
    (p : Nat) (hp : p ≤ 65535) :
    read_socket_addr (ipv4Display v ++ ':' :: decPrint p) =
      some ((IpAddr.v4 v, p), []) := by
  have h1 := read_ipv4_display_complete v hwf (':' :: decPrint p)
    (headNotDigit_cons 10 ':' _ (by decide))
  have h2 := read_port_print p hp
  have hv4 : read_socket_addr_v4 (ipv4Display v ++ ':' :: decPrint p) =
      some ((v, p), []) := by
    simp only [read_socket_addr_v4, Option.bind_eq_bind, h1, Option.some_bind,
      h2]
  simp [read_socket_addr, hv4]

theorem socket_v6_display (ip : Ipv6) (hlen : ip.segs.length = 8)
    (hwf : ∀ g ∈ ip.segs, g ≤ 65535) (p : Nat) (hp : p ≤ 65535) :
    read_socket_addr ('[' :: (ipv6Display ip ++ ']' :: ':' :: decPrint p)) =
      some ((IpAddr.v6 ip, p), []) := by
  have hv4 : read_socket_addr_v4
      ('[' :: (ipv6Display ip ++ ']' :: ':' :: decPrint p)) = none := by
    have hn := read_ipv4_head_fail '[' (by decide)
      (ipv6Display ip ++ ']' :: ':' :: decPrint p)
    simp [read_socket_addr_v4, hn]
  have h6 := read_ipv6_display ip hlen hwf (']' :: ':' :: decPrint p)
    (Or.inr ⟨':' :: decPrint p, rfl⟩)
  have hscope : read_scope_id (']' :: ':' :: decPrint p) = none := rfl
  have hv6 : read_socket_addr_v6
      ('[' :: (ipv6Display ip ++ ']' :: ':' :: decPrint p)) =
      some ((ip, p), []) := by
    simp only [read_socket_addr_v6, Option.bind_eq_bind, read_given_char_cons,
      Option.some_bind, h6, hscope, read_port_print p hp]
  simp [read_socket_addr, hv4, hv6]

theorem read_socket_addr_wf (input : List Char) (ip : IpAddr) (p : Nat)
    (rest : List Char) (h : read_socket_addr input = some ((ip, p), rest)) :
    ipWf ip ∧ p ≤ 65535 := by
  simp only [read_socket_addr] at h
  rcases hv4 : read_socket_addr_v4 input with _ | ⟨⟨v, port⟩, r⟩ <;>
    rw [hv4] at h
  · rcases hv6 : read_socket_addr_v6 input with _ | ⟨⟨w, port⟩, r⟩ <;>
      rw [hv6] at h
    · cases h
    · injection h with h
      injection h with hpair hrest
      injection hpair with hip hport
      subst hip
      simp only [read_socket_addr_v6, Option.bind_eq_bind] at hv6
      rcases hx1 : read_given_char '[' input with _ | ⟨u1, r1⟩ <;>
        rw [hx1] at hv6
      · cases hv6
      simp only [Option.some_bind] at hv6
      rcases hx2 : read_ipv6_addr r1 with _ | ⟨w2, r2⟩ <;> rw [hx2] at hv6
      · cases hv6
      simp only [Option.some_bind] at hv6
      rcases hsc : read_scope_id r2 with _ | ⟨u3, r3⟩ <;>
        simp only [hsc] at hv6
      · rcases hx3 : read_given_char ']' r2 with _ | ⟨u4, r4⟩ <;>
          rw [hx3] at hv6
        · cases hv6
        simp only [Option.some_bind] at hv6
        rcases hx4 : read_port r4 with _ | ⟨q, r5⟩ <;> rw [hx4] at hv6
        · cases hv6
        simp only [Option.some_bind] at hv6
        injection hv6 with hv6
        injection hv6 with hpair2 hrest2
        injection hpair2 with hw hq
        constructor
        · rw [← hw]
          exact read_ipv6_wf r1 w2 r2 hx2
        · rw [← hport, ← hq]
          exact read_port_sound r4 q r5 hx4
      · rcases hx3 : read_given_char ']' r3 with _ | ⟨u4, r4⟩ <;>
          rw [hx3] at hv6
        · cases hv6
        simp only [Option.some_bind] at hv6
        rcases hx4 : read_port r4 with _ | ⟨q, r5⟩ <;> rw [hx4] at hv6
        · cases hv6
        simp only [Option.some_bind] at hv6
        injection hv6 with hv6
        injection hv6 with hpair2 hrest2
        injection hpair2 with hw hq
        constructor
        · rw [← hw]
          exact read_ipv6_wf r1 w2 r2 hx2
        · rw [← hport, ← hq]
          exact read_port_sound r4 q r5 hx4
  · injection h with h
    injection h with hpair hrest
    injection hpair with hip hport
    subst hip
    simp only [read_socket_addr_v4, Option.bind_eq_bind] at hv4
    rcases hx1 : read_ipv4_addr input with _ | ⟨w, r1⟩ <;> rw [hx1] at hv4
    · cases hv4
    simp only [Option.some_bind] at hv4
    rcases hx2 : read_port r1 with _ | ⟨q, r2⟩ <;> rw [hx2] at hv4
    · cases hv4
    simp only [Option.some_bind] at hv4
    injection hv4 with hv4
    injection hv4 with hpair2 hrest2
    injection hpair2 with hw hq
    obtain ⟨-, hwf, -⟩ := read_ipv4_sound input w r1 hx1
    constructor
    · rw [← hw]
      exact hwf
    · rw [← hport, ← hq]
      exact read_port_sound r1 q r2 hx2

theorem read_ip_addr_wf (input : List Char) (ip : IpAddr) (rest : List Char)
    (h : read_ip_addr input = some (ip, rest)) : ipWf ip := by
  simp only [read_ip_addr] at h
  rcases hv4 : read_ipv4_addr input with _ | ⟨v, r⟩ <;> rw [hv4] at h
  · rcases hv6 : read_ipv6_addr input with _ | ⟨w, r⟩ <;> rw [hv6] at h
    · cases h
    · injection h with h
      injection h with hip hrest
      subst hip
      exact read_ipv6_wf input w r hv6
  · injection h with h
    injection h with hip hrest
    subst hip
    obtain ⟨-, hwf, -⟩ := read_ipv4_sound input v r hv4
    exact hwf

theorem parse_socket_addr_display (ip : IpAddr) (hwf : ipWf ip) (p : Nat)
    (hp : p ≤ 65535) :
    parse_socket_addr (hostAddrDisplay ⟨Host.ip ip, p⟩) = some (ip, p) := by
  cases ip with
  | v4 v =>
    have hs := socket_v4_display v hwf p hp
    have hd : hostAddrDisplay ⟨Host.ip (IpAddr.v4 v), p⟩ =
        ipv4Display v ++ ':' :: decPrint p := rfl
    simp only [parse_socket_addr, parse_full, hd, hs]
  | v6 w =>
    have hs := socket_v6_display w hwf.1 hwf.2 p hp
    have hd : hostAddrDisplay ⟨Host.ip (IpAddr.v6 w), p⟩ =
        '[' :: (ipv6Display w ++ ']' :: ':' :: decPrint p) := rfl
    simp only [parse_socket_addr, parse_full, hd, hs]

theorem hostname_socket_none (h : List Char)
    (hvalid : is_valid_hostname h = true)
    (hB : parse_full read_ipv4_addr h = none) (p : Nat) :
    read_socket_addr (h ++ ':' :: decPrint p) = none := by
  obtain ⟨hne, hchars⟩ := valid_hostname_facts h hvalid
  have hnc : ':' ∉ h := hostname_no_colon h hvalid
  have hv4 : read_socket_addr_v4 (h ++ ':' :: decPrint p) = none := by
    simp only [read_socket_addr_v4, Option.bind_eq_bind]
    rcases hiv : read_ipv4_addr (h ++ ':' :: decPrint p) with _ | ⟨v, r⟩
    · simp
    · simp only [Option.some_bind]
      obtain ⟨hdec, hvwf, hnd⟩ := read_ipv4_sound _ v r hiv
      have hport : read_port r = none := by
        cases hr : r with
        | nil => rfl
        | cons c cs =>
          by_cases hc : c = ':'
          · exfalso
            subst hc
            rw [hr] at hdec
            have hsplitL : splitOnceColon (h ++ ':' :: decPrint p) =
                some (h, decPrint p) :=
              (splitOnceColon_eq_some_iff _ h (decPrint p)).mpr ⟨rfl, hnc⟩
            have hsplitR : splitOnceColon (ipv4Display v ++ ':' :: cs) =
                some (ipv4Display v, cs) :=
              (splitOnceColon_eq_some_iff _ _ _).mpr
                ⟨rfl, ipv4Display_no_colon v⟩
            rw [hdec] at hsplitL
            rw [hsplitL] at hsplitR
            injection hsplitR with hpair
            injection hpair with hEq hEq2
            have hfull : read_ipv4_addr h = some (v, []) := by
              rw [hEq]
              have hcomp := read_ipv4_display_complete v hvwf [] trivial
              simpa using hcomp
            simp [parse_full, hfull] at hB
          · exact read_port_fail _ (by simp [hc])
      rw [hport]
      simp
  have hv6 : read_socket_addr_v6 (h ++ ':' :: decPrint p) = none := by
    obtain ⟨c, cs, hcons⟩ := List.exists_cons_of_ne_nil hne
    have hnb : c ≠ '[' := (hostnameChar_ne c (hchars c (by rw [hcons]; simp))).2
    rw [hcons]
    simp [read_socket_addr_v6, List.cons_append, read_given_char, hnb]
  simp [read_socket_addr, hv4, hv6]

theorem hostname_ip_none (h : List Char) (hvalid : is_valid_hostname h = true)
    (p : Nat) : parse_ip_addr (h ++ ':' :: decPrint p) = none := by
  have hnc : ':' ∉ h := hostname_no_colon h hvalid
  have hcount : (h ++ ':' :: decPrint p).count ':' = 1 := by
    rw [List.count_append, List.count_eq_zero.mpr hnc, List.count_cons_self,
      List.count_eq_zero.mpr (decPrint_no_colon p)]
  have h6 : read_ipv6_addr (h ++ ':' :: decPrint p) = none := by
    rcases hx : read_ipv6_addr (h ++ ':' :: decPrint p) with _ | ⟨w, r⟩
    · rfl
    · have := read_ipv6_colons _ w r hx
      omega
  rcases hiv : read_ipv4_addr (h ++ ':' :: decPrint p) with _ | ⟨v, r⟩
  · have hra : read_ip_addr (h ++ ':' :: decPrint p) = none := by
      simp [read_ip_addr, hiv, h6]
    simp [parse_ip_addr, parse_full, hra]
  · obtain ⟨hdec, -, -⟩ := read_ipv4_sound _ v r hiv
    have hrne : r ≠ [] := by
      intro hr0
      subst hr0
      have hmem : ':' ∈ ipv4Display v ++ ([] : List Char) := by
        rw [← hdec]
        simp
      simp at hmem
      exact ipv4Display_no_colon v hmem
    have hra : read_ip_addr (h ++ ':' :: decPrint p) = some (IpAddr.v4 v, r) := by
      simp [read_ip_addr, hiv]
    simp only [parse_ip_addr, parse_full, hra]
    cases r with
    | nil => exact absurd rfl hrne
    | cons a as => rfl

theorem hostname_as_ipv4 (h : List Char) (v : Ipv4)
    (hA : parse_full read_ipv4_addr h = some v) (p : Nat) (hp : p ≤ 65535) :
    read_socket_addr (h ++ ':' :: decPrint p) = some ((IpAddr.v4 v, p), []) := by
  have h0 : read_ipv4_addr h = some (v, []) := parse_full_sound _ h v hA
  obtain ⟨hdec, hvwf, -⟩ := read_ipv4_sound h v [] h0
  rw [List.append_nil] at hdec
  subst hdec
  exact socket_v4_display v hvwf p hp

theorem hostname_reparse (h : List Char) (hvalid : is_valid_hostname h = true)
    (p : Nat) (hp : p ≤ 65535) (d : Nat) :
    parse_with_default_port (h ++ ':' :: decPrint p) d =
      some ⟨reclassifyHost (Host.hostname h), p⟩ := by
  rcases hA : parse_full read_ipv4_addr h with _ | v
  · have hsock : parse_socket_addr (h ++ ':' :: decPrint p) = none := by
      simp [parse_socket_addr, parse_full, hostname_socket_none h hvalid hA p]
    have hip := hostname_ip_none h hvalid p
    have hsplit : splitOnceColon (h ++ ':' :: decPrint p) =
        some (h, decPrint p) :=
      (splitOnceColon_eq_some_iff _ h (decPrint p)).mpr
        ⟨rfl, hostname_no_colon h hvalid⟩
    simp [parse_with_default_port, hsock, hip, hsplit,
      parse_u16_decPrint p hp, hvalid, reclassifyHost, hA]
  · have hsock : parse_socket_addr (h ++ ':' :: decPrint p) =
        some (IpAddr.v4 v, p) := by
      simp [parse_socket_addr, parse_full, hostname_as_ipv4 h v hA p hp]
    simp [parse_with_default_port, hsock, reclassifyHost, hA]

/-- Computation outcome separating a Rust panic from a normal return. -/
inductive PanicOr (α : Type)
  | panic
  | ret (value : α)
deriving DecidableEq

/-- Mirrors `find_private_ip` from `net.rs`: its whole body is
`unimplemented!()`, which panics unconditionally, so no call returns. -/
def find_private_ip : PanicOr (Option IpAddr) := PanicOr.panic

/-- Claim C8: `find_private_ip` never returns a value: every call panics
(the body is `unimplemented!()`), so no semantics may be relied upon. -/
theorem C8_find_private_ip_panics :
    find_private_ip = PanicOr.panic ∧
    ∀ r : Option IpAddr, find_private_ip ≠ PanicOr.ret r := by
  constructor
  · rfl
  · intro r h
    cases h


/-- Claim C10, as written, is false: `"1.2.3.4:+80"` parses (via the
`str::parse::<u16>` acceptance of a leading `+`) to the hostname
`"1.2.3.4"` with port 80, its display `"1.2.3.4:80"` re-parses as a socket
address, and the resulting host is the IP `1.2.3.4`, not the hostname. -/
theorem C10_counterexample :
    parse_with_default_port ("1.2.3.4:+80").toList 7 =
      some ⟨Host.hostname ("1.2.3.4").toList, 80⟩ ∧
    hostAddrDisplay ⟨Host.hostname ("1.2.3.4").toList, 80⟩ =
      ("1.2.3.4:80").toList ∧
    parse_with_default_port ("1.2.3.4:80").toList 9 =
      some ⟨Host.ip (IpAddr.v4 ⟨1, 2, 3, 4⟩), 80⟩ ∧
    Host.hostname ("1.2.3.4").toList ≠ Host.ip (IpAddr.v4 ⟨1, 2, 3, 4⟩) := by
  refine ⟨by decide, by decide, by decide, by decide⟩

/-- Claim C10 (corrected): for every `HostAddr` produced by
`parse_with_default_port` with an in-range default port, re-parsing the
display succeeds, always preserves the port (the second default is never
used), and preserves the host up to reclassification: a hostname that
itself reads in full as an IPv4 literal comes back as that IP address
(see `C10_counterexample`); every other host round-trips unchanged. -/
theorem C10_roundtrip_reclassified (s : List Char) (d0 d : Nat)
    (hd0 : d0 ≤ 65535) (a : HostAddr)
    (h : parse_with_default_port s d0 = some a) :
    parse_with_default_port (hostAddrDisplay a) d =
      some ⟨reclassifyHost a.host, a.port⟩ := by
  simp only [parse_with_default_port] at h
  rcases hsock : parse_socket_addr s with _ | ⟨ip, port⟩ <;>
    simp only [hsock] at h
  · rcases hipa : parse_ip_addr s with _ | ip <;> simp only [hipa] at h
    · rcases hsp : splitOnceColon s with _ | ⟨hh, pstr⟩ <;>
        simp only [hsp] at h
      · split at h
        · rename_i hvalid
          injection h with h
          subst h
          have hd : hostAddrDisplay ⟨Host.hostname s, d0⟩ =
              s ++ ':' :: decPrint d0 := rfl
          rw [hd]
          exact hostname_reparse s hvalid d0 hd0 d
        · cases h
      · rcases hu : parse_u16 pstr with _ | port <;> simp only [hu] at h
        · cases h
        · split at h
          · rename_i hvalid
            injection h with h
            subst h
            have hps := parse_u16_sound pstr port hu
            have hd : hostAddrDisplay ⟨Host.hostname hh, port⟩ =
                hh ++ ':' :: decPrint port := rfl
            rw [hd]
            exact hostname_reparse hh hvalid port hps d
          · cases h
    · injection h with h
      subst h
      have hwf := read_ip_addr_wf s ip [] (parse_full_sound read_ip_addr s ip hipa)
      have hps := parse_socket_addr_display ip hwf d0 hd0
      simp [parse_with_default_port, hps, reclassifyHost]
  · injection h with h
    subst h
    obtain ⟨hwf, hple⟩ := read_socket_addr_wf s ip port []
      (parse_full_sound read_socket_addr s (ip, port) hsock)
    have hps := parse_socket_addr_display ip hwf port hple
    simp [parse_with_default_port, hps, reclassifyHost]

/-- Concrete instantiation of `C10_roundtrip_reclassified`: the hostname
`quick.wit` with port 123 round-trips, keeping the hostname. -/
theorem C10_witness :
    7 ≤ 65535 ∧
    parse_with_default_port ("quick.wit:123").toList 7 =
      some ⟨Host.hostname ("quick.wit").toList, 123⟩ ∧
    parse_with_default_port
      (hostAddrDisplay ⟨Host.hostname ("quick.wit").toList, 123⟩) 9 =
      some ⟨reclassifyHost (Host.hostname ("quick.wit").toList), 123⟩ :=
  ⟨by decide, by decide,
    C10_roundtrip_reclassified ("quick.wit:123").toList 7 9 (by decide)
      ⟨Host.hostname ("quick.wit").toList, 123⟩ (by decide)⟩

end QNet
